import Mathlib

/-!
Verification of the congestion-control and reordering core of a WebRTC helper
library. The Rust sources are shallowly embedded: machine integers become
`Nat`/`Int` with explicit wrap-around arithmetic, `f32`/`f64` arithmetic is
modelled as exact rational arithmetic (with the 0.0/0.0 = NaN case modelled
explicitly where a claim depends on it), fallible operations return
`Except`/`Option`, and the async packet source of the reorder buffer is
modelled as a list of pending packets.
-/

/-! ## Sequence numbers (src/util/reorder_buffer.rs)

`SequenceNumber` is a `u16` compared with the RFC 1982 total ordering.
A `u16` value is embedded as a `Nat` below `65536`.
-/

/-- `u16` wrapping subtraction `a.wrapping_sub(b)` for `a b < 65536`. -/
def wrapSub16 (a b : Nat) : Nat := (a + 65536 - b) % 65536

/-- `SequenceNumber::partial_cmp` / `cmp` from `reorder_buffer.rs`
(RFC 1982 ordering with `THRESHOLD = 1 << 15`); the source's `partial_cmp`
never returns `None`, so the embedding returns the `Ordering` directly. -/
def seqNumCmp (a b : Nat) : Ordering :=
  if a = b then Ordering.eq
  else if a < b then
    if wrapSub16 b a < 32768 then Ordering.lt else Ordering.gt
  else
    if wrapSub16 b a > 32768 then Ordering.gt else Ordering.lt

/-- `SequenceNumber::next`: `wrapping_add(1)`. -/
def seqNext (a : Nat) : Nat := (a + 1) % 65536

/-- The `u16` sequence number at offset `i` of a run starting at `s`. -/
def seqAdd (s i : Nat) : Nat := (s + i) % 65536

/-! ## TwccTime (src/interceptor/twcc/sync.rs and data.rs)

`TwccTime` wraps an `i64` microsecond timestamp kept in `[0, 2^24 * 64000)`.
-/

/-- `REFERENCE_TIME_WRAPAROUND = (1 << 24) * 64000`. -/
def twccDomain : Int := 1073741824000

/-- `PROBABLE_WRAPAROUND_THRESHOLD = REFERENCE_TIME_WRAPAROUND / 2`. -/
def twccHalfDomain : Int := 536870912000

/-- `TwccTime::small_delta_sub` from `sync.rs`/`data.rs`. -/
def smallDeltaSub (a b : Int) : Int :=
  let val := a - b
  if val < -twccHalfDomain then val + twccDomain
  else if val > twccHalfDomain then val - twccDomain
  else val

/-! ## Packet groups (src/interceptor/twcc/estimator/delay_based.rs)

The group-membership predicate cited by the spec's packet-group rule.
Departure/arrival times are `TwccTime` values, i.e. `Int` microseconds.
-/

/-- `BURST_TIME_US = 5000`. -/
def burstTimeUs : Int := 5000

structure PacketGroup where
  earliestDepartureTimeUs : Int
  departureTimeUs : Int
  arrivalTimeUs : Int
  sizeBytes : Nat
  numPackets : Nat
deriving DecidableEq

/-- `PacketGroup::new`. -/
def PacketGroup.new (departureTimeUs arrivalTimeUs : Int) (packetSize : Nat) : PacketGroup :=
  { earliestDepartureTimeUs := departureTimeUs
    departureTimeUs := departureTimeUs
    arrivalTimeUs := arrivalTimeUs
    sizeBytes := packetSize
    numPackets := 1 }

/-- `PacketGroup::belongs_to_group` from `delay_based.rs` lines 46-59,
embedded exactly as written (note: the source tests
`departure - earliest_departure > BURST_TIME_US` for membership). -/
def PacketGroup.belongsToGroup (g : PacketGroup) (departureTimeUs arrivalTimeUs : Int) : Bool :=
  if smallDeltaSub departureTimeUs g.earliestDepartureTimeUs > burstTimeUs then
    true
  else
    let interArrivalTime := smallDeltaSub arrivalTimeUs g.arrivalTimeUs
    let interDepartureTime := smallDeltaSub departureTimeUs g.departureTimeUs
    let interGroupDelay := interArrivalTime - interDepartureTime
    if interArrivalTime < burstTimeUs ∧ interGroupDelay < 0 then true else false

/-- Modelled from the spec: the group-membership rule as the spec states it
("in group if `dep − earliest_departure ≤ 5 ms`, OR if
`arr − group.arrival < 5 ms` AND `(arr−group.arrival) − (dep−group.departure) < 0`").
Used only to compare the source's `belongs_to_group` against the spec's words. -/
def specBelongsToGroup (g : PacketGroup) (departureTimeUs arrivalTimeUs : Int) : Bool :=
  (smallDeltaSub departureTimeUs g.earliestDepartureTimeUs ≤ burstTimeUs) ||
  ((smallDeltaSub arrivalTimeUs g.arrivalTimeUs < burstTimeUs) &&
    (smallDeltaSub arrivalTimeUs g.arrivalTimeUs -
      smallDeltaSub departureTimeUs g.departureTimeUs < 0))

/-! ## Loss-based estimator (src/interceptor/twcc/estimator/loss_based.rs)

`f32` arithmetic is modelled as exact rational arithmetic; the one float
peculiarity the estimator relies on - `0.0 / 0.0` being NaN, which compares
false against every threshold - is modelled by an explicit NaN constructor.
-/

inductive F32Frac where
  | num (q : ℚ)
  | nan
deriving DecidableEq

/-- Float `<` against a constant: NaN compares false. -/
def F32Frac.ltc : F32Frac → ℚ → Bool
  | F32Frac.num q, c => decide (q < c)
  | F32Frac.nan, _ => false

/-- Float `>` against a constant: NaN compares false. -/
def F32Frac.gtc : F32Frac → ℚ → Bool
  | F32Frac.num q, c => decide (q > c)
  | F32Frac.nan, _ => false

/-- Numeric value of a finite `F32Frac` (never applied to NaN below). -/
def F32Frac.val : F32Frac → ℚ
  | F32Frac.num q => q
  | F32Frac.nan => 0

/-- `LossBasedBandwidthEstimator::estimate`: `fraction_lost = lost / (received + lost)`
(NaN when the denominator is 0), probe up by 1.05 below 2% loss, back off by
`1 - 0.5 * fraction_lost` above 10% loss, hold otherwise. -/
def lossBasedEstimate (currentBandwidth : ℚ) (received lost : Nat) : ℚ :=
  let total := received + lost
  let fractionLost := if total = 0 then F32Frac.nan else F32Frac.num ((lost : ℚ) / (total : ℚ))
  if fractionLost.ltc (2/100) then
    currentBandwidth * (105/100)
  else if fractionLost.gtc (10/100) then
    currentBandwidth * (1 - (1/2) * fractionLost.val)
  else
    currentBandwidth

/-! ## Delay-based estimator (src/interceptor/twcc/estimator/delay_based/mod.rs)

State read by `DelayBasedBandwidthEstimator::estimate` and the history window
queries (`delay_based/history.rs`). `Instant` is modelled as a millisecond
counter (`Nat`); `f32` arithmetic as exact rationals, with rational division
total (`x / 0 = 0`). `1.08f32.powf` is transcendental, so the theorems are
stated for an arbitrary power function `fpow`. -/

inductive NetworkCondition where
  | underuse
  | normal
  | overuse
deriving DecidableEq

/-- One completed packet group in the `History` window (`history.rs`). -/
structure WindowData where
  id : Nat
  arrivalTimeUs : Int
  sizeBytes : Nat
  numPackets : Nat
deriving DecidableEq

structure InterdepartureTimeData where
  id : Nat
  interDepartureTime : Int
deriving DecidableEq

/-- `History`: FIFO of completed packet groups with running totals.
`data` front is the oldest entry (VecDeque pushed at the back). -/
structure History where
  data : List WindowData
  ascendingMinima : List InterdepartureTimeData
  totalPacketSizeBytes : Nat
  numPackets : Nat
deriving DecidableEq

/-- `History::average_packet_size_bytes` (`total / num_packets` as `f32`). -/
def History.averagePacketSizeBytes (h : History) : ℚ :=
  (h.totalPacketSizeBytes : ℚ) / (h.numPackets : ℚ)

/-- `History::received_bandwidth_bytes_per_sec`:
`total_bytes / (back.arrival - front.arrival)` over the window, `None` on an
empty window. -/
def History.receivedBandwidthBytesPerSec (h : History) : Option ℚ := do
  let back ← h.data.getLast?
  let front ← h.data.head?
  pure ((h.totalPacketSizeBytes : ℚ) /
    ((smallDeltaSub back.arrivalTimeUs front.arrivalTimeUs : Int) : ℚ))

/-- `IncomingBitrateEstimate` (exponential moving average of the received
rate); `estimate` reads only `close_to_ave`. -/
structure IncomingBitrateEstimate where
  mean : ℚ
  variance : ℚ
  closeToAve : Bool
deriving DecidableEq

/-- `DelayBasedBandwidthEstimator` state (the packet-group formation and
overuse-detector sub-state is carried opaquely by the claims about
`estimate`, which reads only the fields below plus the current groups). -/
structure DelayBasedBandwidthEstimator where
  prevGroup : Option PacketGroup
  currGroup : Option PacketGroup
  history : History
  incomingBitrateEstimate : IncomingBitrateEstimate
  lastUpdate : Option Nat
  networkCondition : NetworkCondition
  rttMs : ℚ
deriving DecidableEq

/-- `ESTIMATOR_REACTION_TIME_MS = 100.0`. -/
def estimatorReactionTimeMs : ℚ := 100

/-- `DECREASE_RATE_FACTOR = 0.85`. -/
def decreaseRateFactor : ℚ := 85/100

/-- `bandwidth_additive_increase` from `delay_based/mod.rs`. -/
def bandwidthAdditiveIncrease (currentBandwidth timeSinceLastUpdateMs rttMs
    avePacketSizeBytes : ℚ) : ℚ :=
  let responseTimeMs := estimatorReactionTimeMs + rttMs
  let alpha := (1/2) * min 1 (timeSinceLastUpdateMs / responseTimeMs)
  currentBandwidth + max 125 (alpha * avePacketSizeBytes)

/-- `bandwidth_multiplicative_increase`: `R * 1.08^min(1, dt/1000)`, with the
`f32` power function abstracted as `fpow`. -/
def bandwidthMultiplicativeIncrease (fpow : ℚ → ℚ → ℚ)
    (currentBandwidth timeSinceLastUpdateMs : ℚ) : ℚ :=
  let eta := fpow (108/100) (min 1 (timeSinceLastUpdateMs / 1000))
  currentBandwidth * eta

/-- `bandwidth_decrease`: `R * 0.85`. -/
def bandwidthDecrease (currentBandwidth : ℚ) : ℚ :=
  currentBandwidth * decreaseRateFactor

/-- `DelayBasedBandwidthEstimator::time_since_last_update` (`as_millis`,
with the `BURST_TIME_US / 1000 = 5` default before the first update). -/
def DelayBasedBandwidthEstimator.timeSinceLastUpdate
    (st : DelayBasedBandwidthEstimator) (now : Nat) : ℚ :=
  match st.lastUpdate with
  | some t => ((now - t : Nat) : ℚ)
  | none => 5

/-- `DelayBasedBandwidthEstimator::estimate` from `delay_based/mod.rs`
lines 169-197: AIMD branch on the network condition, record `last_update`,
then clamp to the received rate whenever the estimate reaches 1.5 times it.
Returns the estimate and the updated state. -/
def DelayBasedBandwidthEstimator.estimate (fpow : ℚ → ℚ → ℚ)
    (st : DelayBasedBandwidthEstimator) (currentBandwidth : ℚ) (now : Nat) :
    ℚ × DelayBasedBandwidthEstimator :=
  let bandwidthEstimate :=
    match st.networkCondition with
    | NetworkCondition.underuse =>
      let timeSinceLastUpdateMs := st.timeSinceLastUpdate now
      if st.incomingBitrateEstimate.closeToAve then
        bandwidthAdditiveIncrease currentBandwidth timeSinceLastUpdateMs st.rttMs
          st.history.averagePacketSizeBytes
      else
        bandwidthMultiplicativeIncrease fpow currentBandwidth timeSinceLastUpdateMs
    | NetworkCondition.normal => currentBandwidth
    | NetworkCondition.overuse => bandwidthDecrease currentBandwidth
  let st1 := { st with lastUpdate := some now }
  let bandwidthEstimate2 :=
    match st1.history.receivedBandwidthBytesPerSec with
    | some receivedBandwidth =>
      if bandwidthEstimate ≥ (3/2) * receivedBandwidth then receivedBandwidth
      else bandwidthEstimate
    | none => bandwidthEstimate
  (bandwidthEstimate2, st1)

/-! ## Fused estimator (src/interceptor/twcc/estimator/mod.rs) -/

/-- Rust `f32 as u64` cast: truncate toward zero, saturating at the bounds
(negative values map to 0). -/
def f32AsU64 (q : ℚ) : Nat := min (Int.toNat ⌊q⌋) (2^64 - 1)

/-- `TwccBandwidthEstimator` state: the shared `TwccBandwidthEstimate`
atomic `u64` cell, the two sub-estimators (the loss-based one is a unit
struct), and the received/lost counters accumulated from feedback. -/
structure TwccBandwidthEstimatorState where
  estimate : Nat
  delayBasedEstimator : DelayBasedBandwidthEstimator
  received : Nat
  lost : Nat
deriving DecidableEq

/-- `TwccBandwidthEstimator::estimate` from `estimator/mod.rs` lines 37-47:
read the shared cell, run both sub-estimators on it, publish
`min(delay, loss)` back to the cell, and zero the counters. -/
def TwccBandwidthEstimatorState.tick (fpow : ℚ → ℚ → ℚ)
    (st : TwccBandwidthEstimatorState) (now : Nat) : TwccBandwidthEstimatorState :=
  let currentBandwidth : ℚ := (st.estimate : ℚ)
  let resA := st.delayBasedEstimator.estimate fpow currentBandwidth now
  let a := resA.1
  let b := lossBasedEstimate currentBandwidth st.received st.lost
  { st with
    estimate := f32AsU64 (min a b)
    delayBasedEstimator := resA.2
    received := 0
    lost := 0 }

/-! ## Mock pacing encoder (src/mock/encoder.rs)

`MockEncoder::packets(mtu, frame_interval)`: the per-frame pacing batch.
Only the header fields the claims mention are modelled; the constant dummy
payload is irrelevant. The wall clock (`Instant` delta converted to RTP
ticks) enters as the `timestampTicks` argument, and the watch channel
(`has_changed`/`borrow`) as an optional fresh data rate. -/

structure RtpPacket where
  sequenceNumber : Nat
  timestamp : Nat
  marker : Bool
deriving DecidableEq

/-- `NUM_PACKETS = 1_666_667` preallocated dummy packets. -/
def numDummyPackets : Nat := 1666667

/-- `dummy_packets`: packets with `marker: false` and zeroed header fields. -/
def dummyPackets : List RtpPacket :=
  List.replicate numDummyPackets { sequenceNumber := 0, timestamp := 0, marker := false }

structure MockEncoderState where
  sequencerNext : Nat
  dataRate : ℚ
  packets : List RtpPacket
deriving DecidableEq

/-- `MockEncoder::new` (the sequencer's random start is a parameter). -/
def MockEncoderState.new (seqStart : Nat) (dataRate : ℚ) : MockEncoderState :=
  { sequencerNext := seqStart, dataRate := dataRate, packets := dummyPackets }

/-- Rust `f64 as usize`: truncate toward zero, saturating (negative to 0). -/
def f64AsUsize (q : ℚ) : Nat := min (Int.toNat ⌊q⌋) (2^64 - 1)

/-- The `for packet in &mut self.packets[..num_packets]` loop: stamp the
first `k` packets with consecutive sequencer outputs and the batch
timestamp, leaving every other header field (notably `marker`) untouched. -/
def stampPackets : List RtpPacket → Nat → Nat → Nat → List RtpPacket
  | pkts, 0, _, _ => pkts
  | [], _ + 1, _, _ => []
  | p :: rest, k + 1, seqNum, ts =>
    { p with sequenceNumber := seqNum, timestamp := ts } ::
      stampPackets rest k (seqNext seqNum) ts

/-- `self.packets[num_packets - 1].header.marker = true`. -/
def setMarkerAt : List RtpPacket → Nat → List RtpPacket
  | [], _ => []
  | p :: rest, 0 => { p with marker := true } :: rest
  | p :: rest, i + 1 => p :: setMarkerAt rest i

/-- `MockEncoder::packets` from `encoder.rs` lines 201-229. Returns `none`
where the source would panic (slicing beyond the preallocated buffer).
`newRate` is `some r` when `bandwidth_estimate.has_changed()`. -/
def MockEncoderState.packetsFn (st : MockEncoderState) (newRate : Option ℚ)
    (mtu : Nat) (frameIntervalSec : ℚ) (timestampTicks : Nat) :
    Option (List RtpPacket × MockEncoderState) :=
  let st := match newRate with
    | some r => { st with dataRate := r }
    | none => st
  let payloadTotalBytes : ℚ := st.dataRate * frameIntervalSec
  let numPackets := f64AsUsize payloadTotalBytes / (mtu - 12)
  if numPackets = 0 then
    some ([], st)
  else if numPackets ≤ st.packets.length then
    let stamped := stampPackets st.packets numPackets st.sequencerNext timestampTicks
    let marked := setMarkerAt stamped (numPackets - 1)
    some (marked.take numPackets,
      { st with
        packets := marked
        sequencerNext := Nat.rec st.sequencerNext (fun _ s => seqNext s) numPackets })
  else
    none

/-! ## Codec registration (src/peer.rs WebRtcBuilder::register_codecs)

`Codec` is modelled with the fields the registration logic touches: the
codec type, the payload type, the mime type and the `fmtp` line. -/

inductive CodecType where
  | audio
  | video
deriving DecidableEq

structure Codec where
  codecType : CodecType
  payloadType : Nat
  mimeType : String
  sdpFmtpLine : String
deriving DecidableEq

/-- `Codec::set_payload_type`. -/
def Codec.setPayloadType (c : Codec) (pt : Nat) : Codec :=
  { c with payloadType := pt }

/-- `Codec::retransmission`: `None` for audio codecs, otherwise a
`video/rtx` codec with `apt=<base payload type>` (the base codec's payload
type has already been assigned at the call site). -/
def Codec.retransmission (base : Codec) : Option Codec :=
  match base.codecType with
  | CodecType.audio => none
  | CodecType.video =>
    some { codecType := CodecType.video
           payloadType := 0
           mimeType := "video/rtx"
           sdpFmtpLine := "apt=" ++ Nat.repr base.payloadType }

/-- `Codec::ulpfec`. -/
def Codec.ulpfec : Codec :=
  { codecType := CodecType.video
    payloadType := 0
    mimeType := "video/ulpfec"
    sdpFmtpLine := "" }

/-- `Codec::opus` (an audio codec, so it gets no RTX sibling). -/
def Codec.opus : Codec :=
  { codecType := CodecType.audio
    payloadType := 0
    mimeType := "audio/opus"
    sdpFmtpLine := "minptime=10;useinbandfec=1" }

/-- `u8::checked_add(1)`. -/
def checkedAddOne (pt : Nat) : Option Nat :=
  if pt = 255 then none else some (pt + 1)

inductive RegisterFailure where
  | tooManyCodecs
  | notEnoughForRetransmission
  | notEnoughForUlpfec
deriving DecidableEq

/-- The `for mut codec in codecs` loop of `register_codecs`: returns the
registered codecs in order plus the next free payload type. The source
panics where this returns `.error`. -/
def registerLoop : List Codec → Option Nat → Except RegisterFailure (List Codec × Option Nat)
  | [], payloadId => Except.ok ([], payloadId)
  | c :: rest, payloadId =>
    match payloadId with
    | none => Except.error RegisterFailure.tooManyCodecs
    | some payloadType =>
      let c1 := c.setPayloadType payloadType
      let payloadId1 := checkedAddOne payloadType
      match Codec.retransmission c1 with
      | none => do
        let (regs, payloadId2) ← registerLoop rest payloadId1
        Except.ok (c1 :: regs, payloadId2)
      | some retransmission =>
        match payloadId1 with
        | none => Except.error RegisterFailure.notEnoughForRetransmission
        | some payloadType2 =>
          let rtx := retransmission.setPayloadType payloadType2
          do
            let (regs, payloadId2) ← registerLoop rest (checkedAddOne payloadType2)
            Except.ok (c1 :: rtx :: regs, payloadId2)

/-- `WebRtcBuilder::register_codecs` from `peer.rs` lines 228-267:
assign dynamic payload types starting at `96`, one RTX codec directly after
each video codec, and a final ULPFEC codec; the registered codec list is
returned in registration order. -/
def registerCodecs (codecs : List Codec) : Except RegisterFailure (List Codec) := do
  let (regs, payloadId) ← registerLoop codecs (some 96)
  match payloadId with
  | none => Except.error RegisterFailure.notEnoughForUlpfec
  | some payloadType => Except.ok (regs ++ [Codec.ulpfec.setPayloadType payloadType])

/-! ## Reorder buffer (src/util/reorder_buffer.rs)

`ReorderBuffer::read_from_track` embedded as a state machine. The remote
track is modelled as the list of pending packets, each identified by its
`u16` RTP sequence number (the first four header bytes carry it in wire
order; payload bytes are irrelevant to the ordering claims, and packets are
well-formed, so the `len < 4` / header-parsing error paths cannot fire).
A read on an empty list models the 5-second timeout. The `BTreeMap` keyed
by the RFC 1982 `SequenceNumber` order is modelled as a list kept sorted by
`seqNumCmp`, and the preallocated buffer pool by its free-buffer count.
The payload reader is abstracted by `resp : Nat → Bool`, giving for the
`n`-th `push_payload` call whether the reader answers `BytesWritten`
(`true`) or `NeedMoreInput` (`false`); `pushed` records, in order, the
sequence numbers of the packets handed to the reader. -/

inductive ReorderBufferError where
  | noMoreSavedPackets
  | headerParsingError
  | trackRemoteReadTimeout
  | trackRemoteReadError
  | payloadReaderError
  | payloadTooShort
  | bufferFull
  | unableToMaintainReorderBuffer
  | uninitializedSequenceNumber
  | panicked
deriving DecidableEq

structure ReorderBuffer where
  expectedSeqNum : Option Nat
  packets : List Nat
  buffers : Nat
  pushed : List Nat
deriving DecidableEq

/-- `NUM_PACKETS_TO_BUFFER = 128` preallocated buffers. -/
def ReorderBuffer.initial : ReorderBuffer :=
  { expectedSeqNum := none, packets := [], buffers := 128, pushed := [] }

/-- `BTreeMap::insert` on the RFC 1982-ordered key list: returns the new
key list and whether an existing entry was replaced (in which case the
source pushes the evicted buffer back onto the pool). -/
def mapInsert (k : Nat) : List Nat → List Nat × Bool
  | [] => ([k], false)
  | x :: rest =>
    match seqNumCmp k x with
    | Ordering.lt => (k :: x :: rest, false)
    | Ordering.eq => (k :: rest, true)
    | Ordering.gt =>
      let r := mapInsert k rest
      (x :: r.1, r.2)

/-- `ReorderBuffer::process_saved_packets`: drain saved packets while the
smallest saved sequence number equals the expected one, handing each
payload to the reader; stop with `Ok` on `BytesWritten`, continue on
`NeedMoreInput`, and return `NoMoreSavedPackets` at a gap or when the map
is empty. The expected sequence number advances before the push, exactly
as in the source. -/
def processSavedPackets (resp : Nat → Bool) (st : ReorderBuffer) :
    ReorderBuffer × Except ReorderBufferError Unit :=
  match hsv : st.packets with
  | [] => (st, Except.error ReorderBufferError.noMoreSavedPackets)
  | firstSeqNum :: rest =>
    match st.expectedSeqNum with
    | none => (st, Except.error ReorderBufferError.uninitializedSequenceNumber)
    | some expected =>
      if firstSeqNum ≠ expected then
        (st, Except.error ReorderBufferError.noMoreSavedPackets)
      else
        let st1 : ReorderBuffer :=
          { expectedSeqNum := some (seqNext expected)
            packets := rest
            buffers := st.buffers + 1
            pushed := st.pushed ++ [firstSeqNum] }
        if resp st.pushed.length then (st1, Except.ok ())
        else processSavedPackets resp st1
termination_by st.packets.length
decreasing_by simp [st1, hsv]

/-- The read loop of `ReorderBuffer::read_from_track`: check the free pool
(`BufferFull` resets the expected sequence number to the smallest saved
one), read the next packet, compare its sequence number against the
expected one under RFC 1982 order, and deliver / stash / fail accordingly.
Returns the unconsumed remainder of the track. -/
def loopRead (resp : Nat → Bool) (track : List Nat) (st : ReorderBuffer) :
    List Nat × ReorderBuffer × Except ReorderBufferError Unit :=
  if st.buffers = 0 then
    match st.packets with
    | [] => (track, st, Except.error ReorderBufferError.panicked)
    | firstSeqNum :: _ =>
      (track, { st with expectedSeqNum := some firstSeqNum },
        Except.error ReorderBufferError.bufferFull)
  else
    match track with
    | [] => ([], st, Except.error ReorderBufferError.trackRemoteReadTimeout)
    | sequenceNumber :: restTrack =>
      let expected := match st.expectedSeqNum with
        | none => sequenceNumber
        | some e => e
      let st1 : ReorderBuffer := { st with expectedSeqNum := some expected }
      match seqNumCmp sequenceNumber expected with
      | Ordering.eq =>
        if st1.packets.isEmpty then
          let st2 : ReorderBuffer :=
            { st1 with
              expectedSeqNum := some (seqNext expected)
              pushed := st1.pushed ++ [sequenceNumber] }
          if resp st1.pushed.length then (restTrack, st2, Except.ok ())
          else loopRead resp restTrack st2
        else
          let ins := mapInsert sequenceNumber st1.packets
          let st2 : ReorderBuffer :=
            { st1 with
              packets := ins.1
              buffers := st1.buffers - 1 + (if ins.2 then 1 else 0) }
          match processSavedPackets resp st2 with
          | (st3, Except.error ReorderBufferError.noMoreSavedPackets) =>
            loopRead resp restTrack st3
          | (st3, res) => (restTrack, st3, res)
      | Ordering.gt =>
        let ins := mapInsert sequenceNumber st1.packets
        let st2 : ReorderBuffer :=
          { st1 with
            packets := ins.1
            buffers := st1.buffers - 1 + (if ins.2 then 1 else 0) }
        loopRead resp restTrack st2
      | Ordering.lt =>
        (restTrack, st1, Except.error ReorderBufferError.unableToMaintainReorderBuffer)

/-- `ReorderBuffer::read_from_track`: first drain already-saved packets, then
enter the read loop. -/
def readFromTrack (resp : Nat → Bool) (track : List Nat) (st : ReorderBuffer) :
    List Nat × ReorderBuffer × Except ReorderBufferError Unit :=
  if st.packets.isEmpty then loopRead resp track st
  else
    match processSavedPackets resp st with
    | (st1, Except.error ReorderBufferError.noMoreSavedPackets) => loopRead resp track st1
    | (st1, res) => (track, st1, res)

/-- Repeated calls to `read_from_track` (the per-payload read loop of the
consumer): keep calling while the call succeeds, stop at the first error;
`fuel` bounds the number of calls. -/
def readLoop (resp : Nat → Bool) :
    Nat → List Nat → ReorderBuffer → List Nat × ReorderBuffer × Option ReorderBufferError
  | 0, track, st => (track, st, none)
  | fuel + 1, track, st =>
    match readFromTrack resp track st with
    | (track1, st1, Except.ok _) => readLoop resp fuel track1 st1
    | (track1, st1, Except.error e) => (track1, st1, some e)

/-- Abstraction relation for the reorder-buffer proof. The claim's input is
a permutation of the consecutive run `s, s+1, ..., s+n-1` (as `u16` values
`seqAdd s i`); `idx` lists the run offsets in arrival order. After the
machine has consumed `j` packets from the track and delivered the first `d`
run offsets: `track` holds the unread remainder, the expected sequence
number is `seqAdd s d`, the saved map holds exactly the read-but-undelivered
offsets `siv` (sorted; every saved offset is at least `d`), each saved
packet owns one of the 128 buffers, and the reader has received exactly the
run prefix of length `d` in order. -/
structure ReorderInv (s n : Nat) (idx : List Nat) (j d : Nat) (siv : List Nat)
    (track : List Nat) (st : ReorderBuffer) : Prop where
  hjn : j ≤ n
  hdj : d ≤ j
  htrack : track = (idx.drop j).map (seqAdd s)
  hexp : st.expectedSeqNum = some (seqAdd s d)
  hdeliv : ∀ k, k < d → k ∈ idx.take j
  hsorted : List.Sorted (· < ·) siv
  hmem : ∀ i, i ∈ siv ↔ (i ∈ idx.take j ∧ d ≤ i)
  hpack : st.packets = siv.map (seqAdd s)
  hcount : siv.length + d = j
  hbuf : st.buffers + siv.length = 128
  hpush : st.pushed = (List.range d).map (seqAdd s)

/-- A concrete two-group history window for the C4 witness: 3000 bytes
received over a 100 ms window, i.e. a received rate of `3/100` bytes/µs. -/
def sampleHistory : History :=
  { data := [{ id := 0, arrivalTimeUs := 0, sizeBytes := 1500, numPackets := 1 },
             { id := 1, arrivalTimeUs := 100000, sizeBytes := 1500, numPackets := 1 }]
    ascendingMinima := []
    totalPacketSizeBytes := 3000
    numPackets := 2 }

/-- A concrete delay-based estimator state for the C4 witness. -/
def sampleDelayState : DelayBasedBandwidthEstimator :=
  { prevGroup := none
    currGroup := none
    history := sampleHistory
    incomingBitrateEstimate := { mean := 0, variance := 0, closeToAve := false }
    lastUpdate := none
    networkCondition := NetworkCondition.normal
    rttMs := 0 }

/-- A video codec as the builder registers it (H.264-style). -/
def sampleH264 : Codec :=
  { codecType := CodecType.video
    payloadType := 0
    mimeType := "video/H264"
    sdpFmtpLine := "profile-level-id=42e01f" }

/-- The registration produced by `registerCodecs [sampleH264, Codec.opus]`. -/
def sampleRegisteredCodecs : List Codec :=
  [Codec.mk CodecType.video 96 "video/H264" "profile-level-id=42e01f",
   Codec.mk CodecType.video 97 "video/rtx" "apt=96",
   Codec.mk CodecType.audio 98 "audio/opus" "minptime=10;useinbandfec=1",
   Codec.mk CodecType.video 99 "video/ulpfec" ""]

/-- The encoder state after `MockEncoder::new` plus one call producing a
two-packet batch (rate 142560 bytes/s at 60 fps, MTU 1200). -/
def cexEncoderState1 : MockEncoderState :=
  { sequencerNext := 2
    dataRate := 142560
    packets := setMarkerAt (stampPackets dummyPackets 2 0 0) 1 }

/-- A three-packet encoder state for the C6 witness. -/
def sampleEncoderState : MockEncoderState :=
  { sequencerNext := 0
    dataRate := 0
    packets := [RtpPacket.mk 0 0 false, RtpPacket.mk 0 0 false, RtpPacket.mk 0 0 false] }

/-! # Theorems -/

/-! ## C8: TwccTime small_delta_sub -/

/-- C8 counterexample: the claim asserts the folded delta is strictly
greater than `-DOMAIN/2`, but at `a = 0`, `b = DOMAIN/2` (both inside the
domain) `small_delta_sub` returns exactly `-DOMAIN/2`: the fold condition
`val < -PROBABLE_WRAPAROUND_THRESHOLD` is strict, so `-DOMAIN/2` is kept. -/
theorem smallDeltaSub_attains_neg_half_domain_cex :
    smallDeltaSub 0 536870912000 = -536870912000 ∧
    ¬ (-twccHalfDomain < smallDeltaSub 0 536870912000) ∧
    (0 : Int) ≤ 0 ∧ (0 : Int) < twccDomain ∧
    (0 : Int) ≤ 536870912000 ∧ (536870912000 : Int) < twccDomain := by
  refine ⟨?_, ?_, ?_, ?_, ?_, ?_⟩ <;>
    norm_num [smallDeltaSub, twccDomain, twccHalfDomain]

/-- C8 (amended): for `a, b` in the domain `[0, 1073741824000)`,
`small_delta_sub(a, b)` is congruent to `a - b` modulo the domain and lies
in the closed interval `[-DOMAIN/2, DOMAIN/2]` (the endpoint `-DOMAIN/2` is
attainable, so the interval is closed on both sides). -/
theorem smallDeltaSub_congruent_and_bounded (a b : Int)
    (ha0 : 0 ≤ a) (ha1 : a < twccDomain) (hb0 : 0 ≤ b) (hb1 : b < twccDomain) :
    (smallDeltaSub a b - (a - b)) % twccDomain = 0 ∧
    -twccHalfDomain ≤ smallDeltaSub a b ∧ smallDeltaSub a b ≤ twccHalfDomain := by
  simp only [smallDeltaSub, twccDomain, twccHalfDomain] at *
  split_ifs <;> refine ⟨?_, ?_, ?_⟩ <;> omega

/-- C8 witness: the amended theorem applied at `a = 100`,
`b = 1073741823950` (a small positive delta across the wrap-around point). -/
theorem smallDeltaSub_congruent_and_bounded_witness :
    ((0 : Int) ≤ 100 ∧ (100 : Int) < twccDomain ∧
      (0 : Int) ≤ 1073741823950 ∧ (1073741823950 : Int) < twccDomain) ∧
    ((smallDeltaSub 100 1073741823950 - (100 - 1073741823950)) % twccDomain = 0 ∧
      -twccHalfDomain ≤ smallDeltaSub 100 1073741823950 ∧
      smallDeltaSub 100 1073741823950 ≤ twccHalfDomain) :=
  ⟨by norm_num [twccDomain],
    smallDeltaSub_congruent_and_bounded 100 1073741823950
      (by norm_num) (by norm_num [twccDomain]) (by norm_num) (by norm_num [twccDomain])⟩

/-! ## C9: RFC 1982 sequence ordering -/

/-- C9: for every `u16` value `a` and every offset `0 < k < 2^15`, the
RFC 1982 comparison of `reorder_buffer.rs` orders `a` strictly below
`(a + k) mod 2^16`. -/
theorem seqNumCmp_lt_of_small_offset (a k : Nat)
    (ha : a < 65536) (hk0 : 0 < k) (hk1 : k < 32768) :
    seqNumCmp a ((a + k) % 65536) = Ordering.lt := by
  simp only [seqNumCmp, wrapSub16]
  split_ifs <;> first | rfl | (exfalso; omega)

/-- C9 witness: the ordering theorem applied across the `u16` wrap-around
point, at `a = 65535`, `k = 1`. -/
theorem seqNumCmp_lt_of_small_offset_witness :
    (65535 < 65536 ∧ 0 < 1 ∧ 1 < 32768) ∧
    seqNumCmp 65535 ((65535 + 1) % 65536) = Ordering.lt :=
  ⟨by decide,
    seqNumCmp_lt_of_small_offset 65535 1 (by decide) (by decide) (by decide)⟩

/-! ## C2: packet-group membership rule -/

/-- C2: evaluation of `PacketGroup::belongs_to_group` (`delay_based.rs`
lines 46-59) against the spec's membership rule at the group
`{earliest_departure = departure = arrival = 0}`. The source tests
`dep - earliest_departure > BURST_TIME_US` where the spec (and the GCC
draft it implements) requires `≤`: a packet departing 6 ms after the group
start (and arriving 20 ms later, failing the inter-arrival rule) is kept in
the group by the code although the rule says it must start a new group, and
a packet departing 1 ms after the group start is expelled although the rule
says it belongs. -/
theorem belongsToGroup_burst_check_inverted :
    PacketGroup.belongsToGroup (PacketGroup.new 0 0 1500) 6000 20000 = true ∧
    specBelongsToGroup (PacketGroup.new 0 0 1500) 6000 20000 = false ∧
    PacketGroup.belongsToGroup (PacketGroup.new 0 0 1500) 1000 20000 = false ∧
    specBelongsToGroup (PacketGroup.new 0 0 1500) 1000 20000 = true := by
  refine ⟨?_, ?_, ?_, ?_⟩ <;>
    norm_num [PacketGroup.belongsToGroup, specBelongsToGroup, PacketGroup.new,
      smallDeltaSub, burstTimeUs, twccDomain, twccHalfDomain]

/-! ## C10: zero-feedback tick leaves the loss estimate unchanged -/

/-- C10: with `received = 0` and `lost = 0` (as produced for any RTCP
packet that is not a TWCC report) the loss fraction is `0/0 = NaN`, both
threshold comparisons are false, and the hold branch returns the current
bandwidth unchanged. -/
theorem lossEstimate_zero_feedback_is_noop (currentBandwidth : ℚ) :
    lossBasedEstimate currentBandwidth 0 0 = currentBandwidth := by
  simp [lossBasedEstimate, F32Frac.ltc, F32Frac.gtc]

/-! ## C5: monotone loss response -/

/-- C5: for a prior estimate `R ≥ 0` and counters with `received + lost > 0`
and loss fraction `f = lost/(received+lost)`: the new estimate is `≤ R`
when `f ≥ 0.10` and `≥ R` when `f < 0.02`; the update multiplies by `1.05`
when `f < 0.02`, by `1 - 0.5·f` when `f > 0.10`, and holds otherwise. -/
theorem lossEstimate_monotone_response (currentBandwidth : ℚ) (received lost : Nat)
    (hbw : 0 ≤ currentBandwidth) (htotal : 0 < received + lost) :
    ((10/100 : ℚ) ≤ (lost : ℚ) / ((received : ℚ) + (lost : ℚ)) →
      lossBasedEstimate currentBandwidth received lost ≤ currentBandwidth) ∧
    ((lost : ℚ) / ((received : ℚ) + (lost : ℚ)) < 2/100 →
      lossBasedEstimate currentBandwidth received lost = currentBandwidth * (105/100) ∧
      currentBandwidth ≤ lossBasedEstimate currentBandwidth received lost) ∧
    ((10/100 : ℚ) < (lost : ℚ) / ((received : ℚ) + (lost : ℚ)) →
      lossBasedEstimate currentBandwidth received lost =
        currentBandwidth * (1 - (1/2) * ((lost : ℚ) / ((received : ℚ) + (lost : ℚ))))) ∧
    ((2/100 : ℚ) ≤ (lost : ℚ) / ((received : ℚ) + (lost : ℚ)) →
      (lost : ℚ) / ((received : ℚ) + (lost : ℚ)) ≤ 10/100 →
      lossBasedEstimate currentBandwidth received lost = currentBandwidth) := by
  have htne : received + lost ≠ 0 := by omega
  have hf0 : 0 ≤ (lost : ℚ) / ((received : ℚ) + (lost : ℚ)) := by positivity
  have hcast : (((received + lost : Nat)) : ℚ) = (received : ℚ) + (lost : ℚ) := by
    push_cast; ring
  simp only [lossBasedEstimate, htne, if_false, F32Frac.ltc, F32Frac.gtc, F32Frac.val,
    decide_eq_true_eq, gt_iff_lt, hcast]
  split_ifs with h1 h2
  · refine ⟨fun hge => absurd hge (by linarith), fun _ => ⟨rfl, by nlinarith⟩,
      fun hgt => absurd hgt (by linarith), fun hge _ => absurd hge (by linarith)⟩
  · refine ⟨fun _ => ?_, fun hlt => absurd hlt (by linarith), fun _ => rfl,
      fun _ hle => absurd h2 (by linarith)⟩
    nlinarith
  · refine ⟨fun _ => le_refl _, fun hlt => absurd hlt (by linarith),
      fun hgt => absurd h2 (by linarith), fun _ _ => rfl⟩

/-- C5 witness: the monotone-response theorem applied at `R = 100`,
`received = 8`, `lost = 2` (loss fraction `0.2`). -/
theorem lossEstimate_monotone_response_witness :
    ((0 : ℚ) ≤ 100 ∧ 0 < 8 + 2) ∧
    (((10/100 : ℚ) ≤ (2 : ℚ) / ((8 : ℚ) + (2 : ℚ)) →
      lossBasedEstimate 100 8 2 ≤ 100) ∧
    ((2 : ℚ) / ((8 : ℚ) + (2 : ℚ)) < 2/100 →
      lossBasedEstimate 100 8 2 = 100 * (105/100) ∧
      (100 : ℚ) ≤ lossBasedEstimate 100 8 2) ∧
    ((10/100 : ℚ) < (2 : ℚ) / ((8 : ℚ) + (2 : ℚ)) →
      lossBasedEstimate 100 8 2 =
        100 * (1 - (1/2) * ((2 : ℚ) / ((8 : ℚ) + (2 : ℚ))))) ∧
    ((2/100 : ℚ) ≤ (2 : ℚ) / ((8 : ℚ) + (2 : ℚ)) →
      (2 : ℚ) / ((8 : ℚ) + (2 : ℚ)) ≤ 10/100 →
      lossBasedEstimate 100 8 2 = 100)) :=
  ⟨⟨by norm_num, by norm_num⟩,
    by
      have h := lossEstimate_monotone_response 100 8 2 (by norm_num) (by norm_num)
      push_cast at h ⊢
      exact h⟩

/-! ## C3: the estimation tick publishes the fused minimum and resets -/

/-- C3: one `TwccBandwidthEstimator::estimate` tick writes to the shared
`u64` bandwidth cell exactly the (cast of the) minimum of the delay-based
estimate and the loss-based estimate, both computed from the current
published bandwidth, and then resets the `received` and `lost` counters to
zero. `fpow` is the abstracted `f32` power function of the multiplicative
increase. -/
theorem twccEstimator_publishes_min_and_resets (fpow : ℚ → ℚ → ℚ)
    (st : TwccBandwidthEstimatorState) (now : Nat) :
    (st.tick fpow now).estimate =
      f32AsU64 (min ((st.delayBasedEstimator.estimate fpow (st.estimate : ℚ) now).1)
        (lossBasedEstimate (st.estimate : ℚ) st.received st.lost)) ∧
    (st.tick fpow now).received = 0 ∧
    (st.tick fpow now).lost = 0 :=
  ⟨rfl, rfl, rfl⟩

/-! ## C4: the estimate is bounded by the observed received rate -/

/-- The final clamp of `DelayBasedBandwidthEstimator::estimate` is bounded
by `1.5` times a non-negative received rate. -/
theorem clamp_le_of_nonneg (bwe r : ℚ) (hnn : 0 ≤ r) :
    (if bwe ≥ (3/2) * r then r else bwe) ≤ (3/2) * r := by
  split_ifs with h
  · linarith
  · linarith

/-- C4: whenever the history window defines a non-negative received rate
`r`, the delay-based estimate returned by a tick is at most `1.5 * r` (the
clamp replaces any estimate `≥ 1.5 * r` by `r`), and therefore the fused
minimum with any loss-based value also satisfies the bound. -/
theorem delayEstimate_bounded_by_received_rate (fpow : ℚ → ℚ → ℚ)
    (st : DelayBasedBandwidthEstimator) (currentBandwidth : ℚ) (now : Nat)
    (lossValue r : ℚ)
    (hr : st.history.receivedBandwidthBytesPerSec = some r) (hnn : 0 ≤ r) :
    (st.estimate fpow currentBandwidth now).1 ≤ (3/2) * r ∧
    min ((st.estimate fpow currentBandwidth now).1) lossValue ≤ (3/2) * r := by
  have hmain : (st.estimate fpow currentBandwidth now).1 ≤ (3/2) * r := by
    simp only [DelayBasedBandwidthEstimator.estimate, hr]
    exact clamp_le_of_nonneg _ r hnn
  exact ⟨hmain, le_trans (min_le_left _ _) hmain⟩

/-- C4 witness: the bound applied to the sample state with current
bandwidth `1000` bytes/µs (far above the received rate, so the clamp
fires) and an arbitrary loss value. -/
theorem delayEstimate_bounded_by_received_rate_witness :
    (sampleDelayState.history.receivedBandwidthBytesPerSec = some (3/100) ∧
      (0 : ℚ) ≤ 3/100) ∧
    ((sampleDelayState.estimate (fun _ _ => 0) 1000 7).1 ≤ (3/2) * (3/100) ∧
      min ((sampleDelayState.estimate (fun _ _ => 0) 1000 7).1) 500 ≤ (3/2) * (3/100)) :=
  ⟨⟨by norm_num [sampleDelayState, sampleHistory, History.receivedBandwidthBytesPerSec,
      smallDeltaSub, twccHalfDomain, twccDomain], by norm_num⟩,
    delayEstimate_bounded_by_received_rate (fun _ _ => 0) sampleDelayState 1000 7 500
      (3/100)
      (by norm_num [sampleDelayState, sampleHistory, History.receivedBandwidthBytesPerSec,
        smallDeltaSub, twccHalfDomain, twccDomain])
      (by norm_num)⟩

/-! ## C7: payload-type assignment at build time -/

/-- Invariant of the `register_codecs` loop: starting from payload type
`pt ≤ 255`, a successful run registers consecutive payload types starting
at `pt`, leaves the next free payload type (`None` once 255 is passed), and
places the `video/rtx` sibling with `apt=<base>` directly after every video
codec. -/
theorem registerLoop_ok_spec (codecs : List Codec) :
    ∀ (pt : Nat) (regs : List Codec) (pid2 : Option Nat),
    pt ≤ 255 →
    registerLoop codecs (some pt) = Except.ok (regs, pid2) →
    regs.map Codec.payloadType = List.range' pt regs.length ∧
    pt + regs.length ≤ 256 ∧
    pid2 = (if pt + regs.length ≤ 255 then some (pt + regs.length) else none) ∧
    (∀ i c, regs[i]? = some c → c.codecType = CodecType.video →
      c.mimeType ≠ "video/rtx" →
      ∃ rtx, regs[i+1]? = some rtx ∧ rtx.mimeType = "video/rtx" ∧
        rtx.codecType = CodecType.video ∧
        rtx.sdpFmtpLine = "apt=" ++ Nat.repr c.payloadType) := by
  induction codecs with
  | nil =>
    intro pt regs pid2 hpt hok
    simp only [registerLoop, Except.ok.injEq, Prod.mk.injEq] at hok
    obtain ⟨h1, h2⟩ := hok
    subst h1
    refine ⟨rfl, by simp; omega, ?_, ?_⟩
    · simp only [List.length_nil, Nat.add_zero]
      rw [if_pos hpt]
      exact h2.symm
    · intro i c hc
      simp at hc
  | cons c rest ih =>
    intro pt regs pid2 hpt hok
    simp only [registerLoop, Codec.setPayloadType, Codec.retransmission] at hok
    cases hcodec : c.codecType with
    | audio =>
      rw [hcodec] at hok
      by_cases h255 : pt = 255
      · subst h255
        cases rest with
        | nil =>
          simp only [checkedAddOne, if_pos, registerLoop, Except.ok.injEq, Prod.mk.injEq,
            reduceIte, bind, Except.bind] at hok
          obtain ⟨h1, h2⟩ := hok
          subst h1
          refine ⟨rfl, by simp, by simp [← h2], ?_⟩
          intro i c' hc' hvid hmime
          match i, hc' with
          | 0, hc' =>
            simp only [List.getElem?_cons_zero, Option.some.injEq] at hc'
            rw [← hc'] at hvid
            simp at hvid
        | cons r rs =>
          simp only [checkedAddOne, reduceIte, registerLoop, bind, Except.bind] at hok
          exact Except.noConfusion hok
      · have hcheck : checkedAddOne pt = some (pt + 1) := by simp [checkedAddOne, h255]
        rw [hcheck] at hok
        cases hrec : registerLoop rest (some (pt + 1)) with
        | error e =>
          rw [hrec] at hok
          simp only [bind, Except.bind] at hok
          exact Except.noConfusion hok
        | ok p =>
          obtain ⟨regs2, pidr⟩ := p
          rw [hrec] at hok
          simp only [bind, Except.bind, Except.ok.injEq, Prod.mk.injEq] at hok
          obtain ⟨h1, h2⟩ := hok
          subst h1
          obtain ⟨ihmap, ihle, ihpid, ihadj⟩ := ih (pt + 1) regs2 pidr (by omega) hrec
          have hlen : pt + 1 + regs2.length = pt + (regs2.length + 1) := by omega
          refine ⟨?_, ?_, ?_, ?_⟩
          · simp only [List.map_cons, ihmap, List.length_cons, List.range'_succ]
          · simp only [List.length_cons]
            omega
          · simp only [List.length_cons, ← hlen]
            exact h2 ▸ ihpid
          · intro i c' hc' hvid hmime
            match i, hc' with
            | 0, hc' =>
              simp only [List.getElem?_cons_zero, Option.some.injEq] at hc'
              rw [← hc'] at hvid
              simp at hvid
            | (j + 1), hc' =>
              simp only [List.getElem?_cons_succ] at hc' ⊢
              exact ihadj j c' hc' hvid hmime
    | video =>
      rw [hcodec] at hok
      by_cases h255 : pt = 255
      · subst h255
        simp only [checkedAddOne, reduceIte] at hok
        exact Except.noConfusion hok
      · have hcheck : checkedAddOne pt = some (pt + 1) := by simp [checkedAddOne, h255]
        rw [hcheck] at hok
        by_cases h254 : pt = 254
        · subst h254
          cases rest with
          | nil =>
            simp only [checkedAddOne, reduceIte, registerLoop, Except.ok.injEq,
              Prod.mk.injEq, bind, Except.bind] at hok
            obtain ⟨h1, h2⟩ := hok
            subst h1
            refine ⟨rfl, by simp, by simp [← h2], ?_⟩
            intro i c' hc' hvid hmime
            match i, hc' with
            | 0, hc' =>
              simp only [List.getElem?_cons_zero, Option.some.injEq] at hc'
              subst hc'
              exact ⟨Codec.mk CodecType.video (254 + 1) "video/rtx"
                ("apt=" ++ Nat.repr 254), by simp, rfl, rfl, rfl⟩
            | 1, hc' =>
              simp only [List.getElem?_cons_succ, List.getElem?_cons_zero,
                Option.some.injEq] at hc'
              rw [← hc'] at hmime
              simp at hmime
          | cons r rs =>
            simp only [checkedAddOne, reduceIte, registerLoop, bind, Except.bind] at hok
            exact Except.noConfusion hok
        · have hcheck2 : checkedAddOne (pt + 1) = some (pt + 2) := by
            simp only [checkedAddOne, reduceIte]
            split
            · omega
            · rfl
          simp only [hcheck2] at hok
          cases hrec : registerLoop rest (some (pt + 2)) with
          | error e =>
            rw [hrec] at hok
            simp only [bind, Except.bind] at hok
            exact Except.noConfusion hok
          | ok p =>
            obtain ⟨regs2, pidr⟩ := p
            rw [hrec] at hok
            simp only [bind, Except.bind, Except.ok.injEq, Prod.mk.injEq] at hok
            obtain ⟨h1, h2⟩ := hok
            subst h1
            obtain ⟨ihmap, ihle, ihpid, ihadj⟩ := ih (pt + 2) regs2 pidr (by omega) hrec
            have hlen : pt + 2 + regs2.length = pt + (regs2.length + 1 + 1) := by omega
            refine ⟨?_, ?_, ?_, ?_⟩
            · simp only [List.map_cons, ihmap, List.length_cons, List.range'_succ]
            · simp only [List.length_cons]
              omega
            · simp only [List.length_cons, ← hlen]
              exact h2 ▸ ihpid
            · intro i c' hc' hvid hmime
              match i, hc' with
              | 0, hc' =>
                simp only [List.getElem?_cons_zero, Option.some.injEq] at hc'
                subst hc'
                exact ⟨Codec.mk CodecType.video (pt + 1) "video/rtx"
                  ("apt=" ++ pt.repr), by simp, rfl, rfl, rfl⟩
              | 1, hc' =>
                simp only [List.getElem?_cons_succ, List.getElem?_cons_zero,
                  Option.some.injEq] at hc'
                rw [← hc'] at hmime
                simp at hmime
              | (j + 2), hc' =>
                simp only [List.getElem?_cons_succ] at hc' ⊢
                exact ihadj j c' hc' hvid hmime

/-- C7 (amended): on success, `register_codecs` assigns consecutive dynamic
payload types starting at 96 in construction order, places one `video/rtx`
codec with `fmtp apt=<base payload type>` directly after each video codec,
and registers exactly one trailing ULPFEC codec; at most 160 payload types
(96..255) can be handed out before the builder panics, so - contrary to the
claim - payload types above 127 are registered without failure (the
exhaustion check is `u8::checked_add`, which only fails past 255). -/
theorem registerCodecs_assignment (codecs regs : List Codec)
    (hok : registerCodecs codecs = Except.ok regs) :
    regs.map Codec.payloadType = List.range' 96 regs.length ∧
    regs.length ≤ 160 ∧
    (∃ u, regs.getLast? = some u ∧ u.mimeType = "video/ulpfec") ∧
    (∀ i c, regs[i]? = some c → c.codecType = CodecType.video →
      c.mimeType ≠ "video/rtx" → c.mimeType ≠ "video/ulpfec" →
      ∃ rtx, regs[i+1]? = some rtx ∧ rtx.mimeType = "video/rtx" ∧
        rtx.sdpFmtpLine = "apt=" ++ Nat.repr c.payloadType) := by
  simp only [registerCodecs] at hok
  cases hloop : registerLoop codecs (some 96) with
  | error e =>
    rw [hloop] at hok
    simp only [bind, Except.bind] at hok
    exact Except.noConfusion hok
  | ok p =>
    obtain ⟨regs0, pid⟩ := p
    rw [hloop] at hok
    simp only [bind, Except.bind] at hok
    obtain ⟨hmap, hle, hpid, hadj⟩ := registerLoop_ok_spec codecs 96 regs0 pid (by omega) hloop
    cases pid with
    | none => exact Except.noConfusion hok
    | some ptU =>
      simp only [Except.ok.injEq] at hok
      subst hok
      have hlen255 : 96 + regs0.length ≤ 255 ∧ ptU = 96 + regs0.length := by
        by_cases hc : 96 + regs0.length ≤ 255
        · rw [if_pos hc] at hpid
          injection hpid with h
          exact ⟨hc, h⟩
        · rw [if_neg hc] at hpid
          exact absurd hpid (by simp)
      obtain ⟨hbound, hptU⟩ := hlen255
      refine ⟨?_, ?_, ?_, ?_⟩
      · rw [List.map_append, hmap, List.length_append]
        simp only [List.map_cons, List.map_nil, Codec.setPayloadType, List.length_cons,
          List.length_nil, Nat.add_zero]
        rw [List.range'_1_concat, hptU]
      · rw [List.length_append]
        simp only [List.length_cons, List.length_nil]
        omega
      · exact ⟨_, List.getLast?_concat _, rfl⟩
      · intro i c hc hvid hrtx hulp
        rcases lt_trichotomy i regs0.length with hi | hi | hi
        · rw [List.getElem?_append, if_pos hi] at hc
          obtain ⟨rtx, hrtx1, hrtx2, hrtx3, hrtx4⟩ := hadj i c hc hvid hrtx
          have hi1 : i + 1 < regs0.length := by
            rcases List.getElem?_eq_some_iff.mp hrtx1 with ⟨h, _⟩
            exact h
          refine ⟨rtx, ?_, hrtx2, hrtx4⟩
          rw [List.getElem?_append, if_pos hi1]
          exact hrtx1
        · exfalso
          rw [List.getElem?_append_right (le_of_eq hi.symm)] at hc
          rw [hi] at hc
          simp only [Nat.sub_self, List.getElem?_cons_zero, Option.some.injEq] at hc
          rw [← hc] at hulp
          exact hulp rfl
        · rw [List.getElem?_append_right (by omega)] at hc
          have : i - regs0.length ≥ 1 := by omega
          rcases List.getElem?_eq_some_iff.mp hc with ⟨h, _⟩
          simp only [List.length_cons, List.length_nil] at h
          omega

/-- C7 witness: the amended theorem applied to one video codec plus Opus:
payload types 96 (H.264), 97 (RTX, `apt=96`), 98 (Opus), 99 (ULPFEC). -/
theorem registerCodecs_assignment_witness :
    registerCodecs [sampleH264, Codec.opus] = Except.ok sampleRegisteredCodecs ∧
    (sampleRegisteredCodecs.map Codec.payloadType =
        List.range' 96 sampleRegisteredCodecs.length ∧
      sampleRegisteredCodecs.length ≤ 160 ∧
      (∃ u, sampleRegisteredCodecs.getLast? = some u ∧ u.mimeType = "video/ulpfec") ∧
      (∀ i c, sampleRegisteredCodecs[i]? = some c → c.codecType = CodecType.video →
        c.mimeType ≠ "video/rtx" → c.mimeType ≠ "video/ulpfec" →
        ∃ rtx, sampleRegisteredCodecs[i+1]? = some rtx ∧ rtx.mimeType = "video/rtx" ∧
          rtx.sdpFmtpLine = "apt=" ++ Nat.repr c.payloadType)) :=
  ⟨rfl, registerCodecs_assignment [sampleH264, Codec.opus] sampleRegisteredCodecs rfl⟩

/-- C7 counterexample: registering 33 audio codecs succeeds and hands out
payload types beyond 127 (96..128 for the codecs, 129 for ULPFEC), so the
claim that the builder fails when the 96-127 window is exhausted is false:
the only failure point is `u8` overflow past 255. -/
theorem registerCodecs_past_127_no_failure_cex :
    (registerCodecs (List.replicate 33 Codec.opus)).toOption.map
      (fun regs => regs.any (fun c => 127 < c.payloadType)) = some true := by decide

/-! ## C6: pacing batch size and marker placement -/

/-- Stamping a batch preserves the buffer length. -/
theorem stampPackets_length (l : List RtpPacket) :
    ∀ k s ts, (stampPackets l k s ts).length = l.length := by
  induction l with
  | nil => intro k s ts; cases k <;> rfl
  | cons p rest ih =>
    intro k s ts
    cases k with
    | zero => rfl
    | succ k => simp [stampPackets, ih]

/-- Setting a marker preserves the buffer length. -/
theorem setMarkerAt_length (l : List RtpPacket) :
    ∀ i, (setMarkerAt l i).length = l.length := by
  induction l with
  | nil => intro i; rfl
  | cons p rest ih =>
    intro i
    cases i with
    | zero => rfl
    | succ i => simp [setMarkerAt, ih]

/-- The packet at the marked position has its marker bit set. -/
theorem setMarkerAt_getElem_self (l : List RtpPacket) :
    ∀ i, i < l.length → ∃ p, (setMarkerAt l i)[i]? = some p ∧ p.marker = true := by
  induction l with
  | nil => intro i h; simp at h
  | cons p rest ih =>
    intro i h
    cases i with
    | zero => exact ⟨{ p with marker := true }, by simp [setMarkerAt], rfl⟩
    | succ i =>
      simp only [List.length_cons, Nat.succ_lt_succ_iff] at h
      obtain ⟨q, hq1, hq2⟩ := ih i h
      exact ⟨q, by simpa [setMarkerAt] using hq1, hq2⟩

/-- Unfolding of `MockEncoder::packets` for a non-empty batch that fits in
the preallocated buffer. -/
theorem packetsFn_some (st : MockEncoderState) (rate : ℚ) (mtu : Nat) (interval : ℚ)
    (ts : Nat) (k : Nat)
    (hk : f64AsUsize (rate * interval) / (mtu - 12) = k) (hk0 : k ≠ 0)
    (hlen : k ≤ st.packets.length) :
    st.packetsFn (some rate) mtu interval ts =
      some ((setMarkerAt (stampPackets st.packets k st.sequencerNext ts) (k - 1)).take k,
        { st with
          dataRate := rate
          packets := setMarkerAt (stampPackets st.packets k st.sequencerNext ts) (k - 1)
          sequencerNext := Nat.rec st.sequencerNext (fun _ s => seqNext s) k }) := by
  simp only [MockEncoderState.packetsFn, hk]
  rw [if_neg hk0, if_pos hlen]

/-- C6 (amended): every successful `packets(mtu, frame_interval)` call
returns exactly `floor(rate * interval_sec) / (mtu - 12)` packets, returns
the empty batch when that number is zero, and sets the marker bit on the
last packet of a non-empty batch. (The claim's further assertion that no
earlier packet of the batch carries a marker is false: markers of previous,
smaller batches are never cleared in the reused buffer - see the
counterexample.) -/
theorem mockEncoder_packets_count_and_last_marker (st : MockEncoderState)
    (rate : ℚ) (mtu : Nat) (interval : ℚ) (ts : Nat)
    (batch : List RtpPacket) (st2 : MockEncoderState)
    (hok : st.packetsFn (some rate) mtu interval ts = some (batch, st2)) :
    batch.length = f64AsUsize (rate * interval) / (mtu - 12) ∧
    (f64AsUsize (rate * interval) / (mtu - 12) = 0 → batch = []) ∧
    (batch ≠ [] → ∃ p, batch.getLast? = some p ∧ p.marker = true) := by
  by_cases hk0 : f64AsUsize (rate * interval) / (mtu - 12) = 0
  · simp only [MockEncoderState.packetsFn, hk0, if_pos, reduceIte,
      Option.some.injEq, Prod.mk.injEq] at hok
    obtain ⟨h1, _⟩ := hok
    subst h1
    exact ⟨by simp [hk0], fun _ => rfl, fun h => absurd rfl h⟩
  · by_cases hlen : f64AsUsize (rate * interval) / (mtu - 12) ≤ st.packets.length
    · rw [packetsFn_some st rate mtu interval ts _ rfl hk0 hlen] at hok
      simp only [Option.some.injEq, Prod.mk.injEq] at hok
      obtain ⟨h1, _⟩ := hok
      subst h1
      set k := f64AsUsize (rate * interval) / (mtu - 12) with hkdef
      have hmlen : (setMarkerAt (stampPackets st.packets k st.sequencerNext ts) (k - 1)).length
          = st.packets.length := by
        rw [setMarkerAt_length, stampPackets_length]
      have hblen :
          ((setMarkerAt (stampPackets st.packets k st.sequencerNext ts) (k - 1)).take k).length
          = k := by
        rw [List.length_take, hmlen]
        omega
      refine ⟨hblen, fun h => absurd h hk0, fun _ => ?_⟩
      have hk1 : k - 1 < (stampPackets st.packets k st.sequencerNext ts).length := by
        rw [stampPackets_length]
        omega
      obtain ⟨p, hp1, hp2⟩ :=
        setMarkerAt_getElem_self (stampPackets st.packets k st.sequencerNext ts) (k - 1) hk1
      refine ⟨p, ?_, hp2⟩
      rw [List.getLast?_eq_getElem?, hblen, List.getElem?_take, if_pos (by omega)]
      exact hp1
    · exfalso
      simp only [MockEncoderState.packetsFn, if_neg hk0, if_neg hlen] at hok
      exact Option.noConfusion hok

/-- C6 counterexample: starting from `MockEncoder::new`, a first call
producing a 2-packet batch marks packet index 1; the next call producing a
3-packet batch returns markers `[false, true, true]`: the marker of the
earlier batch is still set on a non-last packet (index 1) of the new batch,
so the claim that no earlier packet of the batch has its marker set is
false. -/
theorem mockEncoder_stale_marker_cex :
    (MockEncoderState.new 0 0).packetsFn (some 142560) 1200 (1/60) 0 =
      some ((setMarkerAt (stampPackets dummyPackets 2 0 0) 1).take 2, cexEncoderState1) ∧
    ((setMarkerAt (stampPackets dummyPackets 2 0 0) 1).take 2).map RtpPacket.marker =
      [false, true] ∧
    (cexEncoderState1.packetsFn (some 213840) 1200 (1/60) 0).map
        (fun r2 => (r2.1.length, r2.1.map RtpPacket.marker)) =
      some (3, [false, true, true]) := by
  have hlen0 : dummyPackets.length = 1666667 := by
    rw [dummyPackets, List.length_replicate, numDummyPackets]
  have hk1 : f64AsUsize ((142560 : ℚ) * (1/60)) / (1200 - 12) = 2 := by
    norm_num [f64AsUsize]
    decide
  have hk2 : f64AsUsize ((213840 : ℚ) * (1/60)) / (1200 - 12) = 3 := by
    norm_num [f64AsUsize]
    decide
  refine ⟨?_, ?_, ?_⟩
  · exact packetsFn_some (MockEncoderState.new 0 0) 142560 1200 (1/60) 0 2
      hk1 (by omega) (by simp [MockEncoderState.new, hlen0])
  · rfl
  · have hlen1 : cexEncoderState1.packets.length = 1666667 := by
      simp only [cexEncoderState1]
      rw [setMarkerAt_length, stampPackets_length]
      exact hlen0
    have hcall2 := packetsFn_some cexEncoderState1 213840 1200 (1/60) 0 3
      hk2 (by omega) (by rw [hlen1]; omega)
    rw [hcall2, Option.map_some']
    rfl

/-- C6 witness: the amended theorem applied to a concrete call producing
two packets (`rate = 4`, `interval = 1`, `mtu = 14`). -/
theorem mockEncoder_packets_count_and_last_marker_witness :
    sampleEncoderState.packetsFn (some 4) 14 1 0 =
      some ([RtpPacket.mk 0 0 false, RtpPacket.mk 1 0 true],
        MockEncoderState.mk 2 4
          [RtpPacket.mk 0 0 false, RtpPacket.mk 1 0 true, RtpPacket.mk 0 0 false]) ∧
    ([RtpPacket.mk 0 0 false, RtpPacket.mk 1 0 true].length =
        f64AsUsize ((4 : ℚ) * 1) / (14 - 12) ∧
      (f64AsUsize ((4 : ℚ) * 1) / (14 - 12) = 0 →
        [RtpPacket.mk 0 0 false, RtpPacket.mk 1 0 true] = ([] : List RtpPacket)) ∧
      ([RtpPacket.mk 0 0 false, RtpPacket.mk 1 0 true] ≠ [] →
        ∃ p, [RtpPacket.mk 0 0 false, RtpPacket.mk 1 0 true].getLast? = some p ∧
          p.marker = true)) := by
  have hk : f64AsUsize ((4 : ℚ) * 1) / (14 - 12) = 2 := by
    norm_num [f64AsUsize]
    decide
  have hok : sampleEncoderState.packetsFn (some 4) 14 1 0 =
      some ([RtpPacket.mk 0 0 false, RtpPacket.mk 1 0 true],
        MockEncoderState.mk 2 4
          [RtpPacket.mk 0 0 false, RtpPacket.mk 1 0 true, RtpPacket.mk 0 0 false]) := by
    rw [packetsFn_some sampleEncoderState 4 14 1 0 2 hk (by omega) (by norm_num [sampleEncoderState])]
    rfl
  exact ⟨hok, mockEncoder_packets_count_and_last_marker sampleEncoderState 4 14 1 0 _ _ hok⟩

/-! ## C1: reorder buffer -/

theorem seqNext_seqAdd (s i : Nat) : seqNext (seqAdd s i) = seqAdd s (i + 1) := by
  simp only [seqNext, seqAdd]
  omega

theorem seqAdd_inj (s i k : Nat) (h : i ≤ k) (hw : k - i < 65536) :
    seqAdd s i = seqAdd s k ↔ i = k := by
  simp only [seqAdd]
  omega

theorem seqNumCmp_self (a : Nat) : seqNumCmp a a = Ordering.eq := by
  simp [seqNumCmp]

theorem seqNumCmp_seqAdd_lt (s i k : Nat) (hik : i < k) (hw : k - i < 32768) :
    seqNumCmp (seqAdd s i) (seqAdd s k) = Ordering.lt := by
  simp only [seqNumCmp, wrapSub16, seqAdd]
  split_ifs <;> first | rfl | (exfalso; omega)

theorem seqNumCmp_seqAdd_gt (s i k : Nat) (hik : i < k) (hw : k - i < 32768) :
    seqNumCmp (seqAdd s k) (seqAdd s i) = Ordering.gt := by
  simp only [seqNumCmp, wrapSub16, seqAdd]
  split_ifs <;> first | rfl | (exfalso; omega)

theorem mem_take_iff_getElem (l : List Nat) (j : Nat) (v : Nat) :
    v ∈ l.take j ↔ ∃ p, p < j ∧ l[p]? = some v := by
  constructor
  · intro h
    obtain ⟨p, hp⟩ := List.mem_iff_getElem?.mp h
    have hpj : p < j := by
      by_contra hc
      rw [List.getElem?_take, if_neg hc] at hp
      exact Option.noConfusion hp
    rw [List.getElem?_take, if_pos hpj] at hp
    exact ⟨p, hpj, hp⟩
  · rintro ⟨p, hpj, hp⟩
    exact List.mem_iff_getElem?.mpr ⟨p, by rw [List.getElem?_take, if_pos hpj]; exact hp⟩

theorem nodup_not_mem_take (l : List Nat) (hnd : l.Nodup) (j i : Nat)
    (hj : l[j]? = some i) : i ∉ l.take j := by
  intro hmem
  obtain ⟨p, hpj, hp⟩ := (mem_take_iff_getElem l j i).mp hmem
  obtain ⟨hlt, hv⟩ := List.getElem?_eq_some_iff.mp hp
  obtain ⟨hlt2, hv2⟩ := List.getElem?_eq_some_iff.mp hj
  have heq : l[p] = l[j] := by rw [hv, hv2]
  have := (List.Nodup.getElem_inj_iff hnd).mp heq
  omega

theorem mapInsert_spec (s i : Nat) (siv : List Nat)
    (hsorted : List.Sorted (· < ·) siv)
    (hwin : ∀ k ∈ siv, k < i + 32768 ∧ i < k + 32768)
    (hni : i ∉ siv) :
    ∃ siv2, mapInsert (seqAdd s i) (siv.map (seqAdd s)) = (siv2.map (seqAdd s), false) ∧
      List.Sorted (· < ·) siv2 ∧
      (∀ x, x ∈ siv2 ↔ x ∈ siv ∨ x = i) ∧
      siv2.length = siv.length + 1 := by
  induction siv with
  | nil =>
    refine ⟨[i], rfl, List.sorted_singleton i, ?_, rfl⟩
    intro x
    simp
  | cons x rest ih =>
    have hxw := hwin x (List.mem_cons_self x rest)
    have hxi : x ≠ i := fun h => hni (h ▸ List.mem_cons_self x rest)
    rcases Nat.lt_or_ge i x with hlt | hge
    · have hcmp : seqNumCmp (seqAdd s i) (seqAdd s x) = Ordering.lt :=
        seqNumCmp_seqAdd_lt s i x hlt (by omega)
    -- front insertion
      refine ⟨i :: x :: rest, ?_, ?_, ?_, ?_⟩
      · simp only [List.map_cons, mapInsert, hcmp]
      · refine List.sorted_cons.mpr ⟨?_, hsorted⟩
        intro b hb
        rcases List.mem_cons.mp hb with rfl | hbr
        · exact hlt
        · exact lt_trans hlt ((List.sorted_cons.mp hsorted).1 b hbr)
      · intro y
        simp only [List.mem_cons]
        tauto
      · simp
    · have hxlt : x < i := by omega
      have hcmp : seqNumCmp (seqAdd s i) (seqAdd s x) = Ordering.gt :=
        seqNumCmp_seqAdd_gt s x i hxlt (by omega)
      obtain ⟨siv2, heq, hs2, hm2, hl2⟩ := ih (List.sorted_cons.mp hsorted).2
        (fun k hk => hwin k (List.mem_cons_of_mem x hk))
        (fun h => hni (List.mem_cons_of_mem x h))
      refine ⟨x :: siv2, ?_, ?_, ?_, ?_⟩
      · simp only [List.map_cons, mapInsert, hcmp, heq]
      · refine List.sorted_cons.mpr ⟨?_, hs2⟩
        intro b hb
        rcases (hm2 b).mp hb with hbr | rfl
        · exact (List.sorted_cons.mp hsorted).1 b hbr
        · exact hxlt
      · intro y
        simp only [List.mem_cons, hm2 y]
        tauto
      · simp [hl2]

theorem processSavedPackets_spec (resp : Nat → Bool) (s n : Nat) (idx : List Nat) (j : Nat) :
    ∀ (siv : List Nat) (d : Nat) (track : List Nat) (st : ReorderBuffer),
    ReorderInv s n idx j d siv track st →
    (∀ i ∈ siv, i < d + 32768) →
    ∃ d2 siv2,
      ReorderInv s n idx j d2 siv2 track (processSavedPackets resp st).1 ∧
      d ≤ d2 ∧
      (((processSavedPackets resp st).2 = Except.ok () ∧ d < d2) ∨
       ((processSavedPackets resp st).2 = Except.error ReorderBufferError.noMoreSavedPackets ∧
         d2 ∉ idx.take j)) := by
  intro siv
  induction siv with
  | nil =>
    intro d track st hinv hwin
    obtain ⟨e, pk, bf, ps⟩ := st
    have hpk : pk = [] := by simpa using hinv.hpack
    subst hpk
    have hstep : processSavedPackets resp ⟨e, [], bf, ps⟩ =
        (⟨e, [], bf, ps⟩, Except.error ReorderBufferError.noMoreSavedPackets) := by
      rw [processSavedPackets]
    refine ⟨d, [], ?_, le_refl d, Or.inr ⟨by rw [hstep], ?_⟩⟩
    · rw [hstep]
      exact hinv
    · intro hd
      have := (hinv.hmem d).mpr ⟨hd, le_refl d⟩
      simp at this
  | cons i0 rest ih =>
    intro d track st hinv hwin
    obtain ⟨e, pk, bf, ps⟩ := st
    have he : e = some (seqAdd s d) := hinv.hexp
    have hpk : pk = seqAdd s i0 :: rest.map (seqAdd s) := by simpa using hinv.hpack
    subst he hpk
    have hi0mem : i0 ∈ i0 :: rest := List.mem_cons_self i0 rest
    have hi0d : d ≤ i0 := ((hinv.hmem i0).mp hi0mem).2
    have hi0w : i0 < d + 32768 := hwin i0 hi0mem
    by_cases heq : i0 = d
    · subst heq
      -- head equals the expected sequence number: pop and deliver
      have hsorted := List.sorted_cons.mp hinv.hsorted
      have hinv1 : ReorderInv s n idx j (i0 + 1) rest track
          ⟨some (seqNext (seqAdd s i0)), rest.map (seqAdd s), bf + 1, ps ++ [seqAdd s i0]⟩ := by
        have hcount := hinv.hcount
        refine ⟨hinv.hjn, ?_, hinv.htrack, ?_, ?_, hsorted.2, ?_, rfl, ?_, ?_, ?_⟩
        · simp only [List.length_cons] at hcount
          omega
        · rw [seqNext_seqAdd]
        · intro k hk
          rcases Nat.lt_or_ge k i0 with hk2 | hk2
          · exact hinv.hdeliv k hk2
          · have : k = i0 := by omega
            subst this
            exact ((hinv.hmem k).mp hi0mem).1
        · intro x
          constructor
          · intro hx
            have hxs := (hinv.hmem x).mp (List.mem_cons_of_mem i0 hx)
            exact ⟨hxs.1, hsorted.1 x hx⟩
          · rintro ⟨hx1, hx2⟩
            have hxs := (hinv.hmem x).mpr ⟨hx1, by omega⟩
            rcases List.mem_cons.mp hxs with rfl | hxr
            · omega
            · exact hxr
        · simp only [List.length_cons] at hcount
          omega
        · have hb : bf + (i0 :: rest).length = 128 := hinv.hbuf
          simp only [List.length_cons] at hb
          show bf + 1 + rest.length = 128
          omega
        · show ps ++ [seqAdd s i0] = List.map (seqAdd s) (List.range (i0 + 1))
          have hp : ps = List.map (seqAdd s) (List.range i0) := hinv.hpush
          rw [hp, List.range_succ, List.map_append]
          rfl
      have hwin1 : ∀ i ∈ rest, i < (i0 + 1) + 32768 := by
        intro i hi
        have := hwin i (List.mem_cons_of_mem i0 hi)
        omega
      by_cases hresp : resp ps.length = true
      · have hstep : processSavedPackets resp
            ⟨some (seqAdd s i0), seqAdd s i0 :: rest.map (seqAdd s), bf, ps⟩ =
            (⟨some (seqNext (seqAdd s i0)), rest.map (seqAdd s), bf + 1,
              ps ++ [seqAdd s i0]⟩, Except.ok ()) := by
          rw [processSavedPackets]
          simp [hresp]
        rw [hstep]
        exact ⟨i0 + 1, rest, hinv1, by omega, Or.inl ⟨rfl, by omega⟩⟩
      · have hstep : processSavedPackets resp
            ⟨some (seqAdd s i0), seqAdd s i0 :: rest.map (seqAdd s), bf, ps⟩ =
            processSavedPackets resp ⟨some (seqNext (seqAdd s i0)), rest.map (seqAdd s),
              bf + 1, ps ++ [seqAdd s i0]⟩ := by
          rw [processSavedPackets]
          simp [hresp]
        rw [hstep]
        obtain ⟨d2, siv2, hinv2, hd2, hcases⟩ := ih (i0 + 1) track _ hinv1 hwin1
        refine ⟨d2, siv2, hinv2, by omega, ?_⟩
        rcases hcases with ⟨h1, h2⟩ | ⟨h1, h2⟩
        · exact Or.inl ⟨h1, by omega⟩
        · exact Or.inr ⟨h1, h2⟩
    · -- head differs from the expected sequence number: stop
      have hne : seqAdd s i0 ≠ seqAdd s d := by
        intro hc
        exact heq ((seqAdd_inj s d i0 hi0d (by omega)).mp hc.symm).symm
      have hstep : processSavedPackets resp
          ⟨some (seqAdd s d), seqAdd s i0 :: rest.map (seqAdd s), bf, ps⟩ =
          (⟨some (seqAdd s d), seqAdd s i0 :: rest.map (seqAdd s), bf, ps⟩,
            Except.error ReorderBufferError.noMoreSavedPackets) := by
        rw [processSavedPackets]
        simp [hne]
      rw [hstep]
      refine ⟨d, i0 :: rest, hinv, le_refl d, Or.inr ⟨rfl, ?_⟩⟩
      intro hd
      have hds := (hinv.hmem d).mpr ⟨hd, le_refl d⟩
      rcases List.mem_cons.mp hds with h | h
      · exact heq h.symm
      · have := (List.sorted_cons.mp hinv.hsorted).1 d h
        omega

theorem mem_take_upper (idx : List Nat)
    (hdisp : ∀ p i, idx[p]? = some i → i ≤ p + 127 ∧ p ≤ i + 127)
    (j k : Nat) (hk : k ∈ idx.take j) : k + 1 ≤ j + 127 := by
  obtain ⟨q, hqj, hq⟩ := (mem_take_iff_getElem idx j k).mp hk
  have := (hdisp q k hq).1
  omega

theorem ready_pos_bound (s n : Nat) (idx : List Nat)
    (hperm : idx.Perm (List.range n))
    (hdisp : ∀ p i, idx[p]? = some i → i ≤ p + 127 ∧ p ≤ i + 127)
    (j d : Nat) (hdn : d < n) (hready : d ∉ idx.take j) : j ≤ d + 127 := by
  have hd_in : d ∈ idx := hperm.mem_iff.mpr (List.mem_range.mpr hdn)
  obtain ⟨p, hp⟩ := List.mem_iff_getElem?.mp hd_in
  have hpj : j ≤ p := by
    by_contra hc
    exact hready ((mem_take_iff_getElem idx j d).mpr ⟨p, by omega, hp⟩)
  have := (hdisp p d hp).2
  omega

theorem loopRead_end (resp : Nat → Bool) (s n : Nat) (idx : List Nat)
    (hperm : idx.Perm (List.range n))
    (j d : Nat) (siv : List Nat) (track : List Nat) (st : ReorderBuffer)
    (hinv : ReorderInv s n idx j d siv track st)
    (hready : d ∉ idx.take j) (hjge : n ≤ j) :
    loopRead resp track st = ([], st, Except.error ReorderBufferError.trackRemoteReadTimeout) ∧
      j = n ∧ d = n ∧ siv = [] := by
  have hlen : idx.length = n := by
    have := hperm.length_eq
    simpa using this
  have hjeq : j = n := le_antisymm hinv.hjn hjge
  have htake : idx.take j = idx := by
    rw [hjeq, ← hlen, List.take_length]
  have hdn : d = n := by
    by_contra hc
    have hdlt : d < n := lt_of_le_of_ne (le_trans hinv.hdj hinv.hjn) hc
    have hd_in : d ∈ idx := hperm.mem_iff.mpr (List.mem_range.mpr hdlt)
    rw [htake] at hready
    exact hready hd_in
  have hsiv : siv = [] := by
    have hc := hinv.hcount
    have hz : siv.length = 0 := by omega
    exact List.eq_nil_of_length_eq_zero hz
  have htr : track = [] := by
    rw [hinv.htrack, List.drop_eq_nil_of_le (by omega), List.map_nil]
  subst htr
  have hbf : st.buffers ≠ 0 := by
    have hb := hinv.hbuf
    rw [hsiv] at hb
    simp at hb
    omega
  refine ⟨?_, hjeq, hdn, hsiv⟩
  rw [loopRead]
  simp [hbf]

theorem loopRead_spec (resp : Nat → Bool) (s n : Nat) (idx : List Nat)
    (hperm : idx.Perm (List.range n))
    (hdisp : ∀ p i, idx[p]? = some i → i ≤ p + 127 ∧ p ≤ i + 127) :
    ∀ (fuel j d : Nat) (siv : List Nat) (track : List Nat) (st : ReorderBuffer),
    n - j ≤ fuel →
    ReorderInv s n idx j d siv track st →
    d ∉ idx.take j →
    ∃ j2 d2 siv2,
      ReorderInv s n idx j2 d2 siv2 (loopRead resp track st).1 (loopRead resp track st).2.1 ∧
      d ≤ d2 ∧
      (((loopRead resp track st).2.2 = Except.ok () ∧ d < d2) ∨
       ((loopRead resp track st).2.2 = Except.error ReorderBufferError.trackRemoteReadTimeout ∧
         j2 = n ∧ d2 = n)) := by
  have hlen : idx.length = n := by simpa using hperm.length_eq
  have hnd : idx.Nodup := hperm.nodup_iff.mpr (List.nodup_range n)
  intro fuel
  induction fuel with
  | zero =>
    intro j d siv track st hfuel hinv hready
    obtain ⟨hstep, hj2, hd2, hsiv⟩ :=
      loopRead_end resp s n idx hperm j d siv track st hinv hready (by omega)
    have htr : track = [] := by
      rw [hinv.htrack, hj2, List.drop_eq_nil_of_le (by omega), List.map_nil]
    rw [hstep]
    refine ⟨n, n, [], ?_, by omega, Or.inr ⟨rfl, rfl, rfl⟩⟩
    have h1 := hinv
    rw [hj2, hd2, hsiv, htr] at h1
    exact h1
  | succ fuel ih =>
    intro j d siv track st hfuel hinv hready
    by_cases hjge : n ≤ j
    · obtain ⟨hstep, hj2, hd2, hsiv⟩ :=
        loopRead_end resp s n idx hperm j d siv track st hinv hready hjge
      have htr : track = [] := by
        rw [hinv.htrack, hj2, List.drop_eq_nil_of_le (by omega), List.map_nil]
      rw [hstep]
      refine ⟨n, n, [], ?_, by omega, Or.inr ⟨rfl, rfl, rfl⟩⟩
      have h1 := hinv
      rw [hj2, hd2, hsiv, htr] at h1
      exact h1
    · push_neg at hjge
      have hjlt : j < idx.length := by omega
      have hj : idx[j]? = some idx[j] := List.getElem?_eq_some_iff.mpr ⟨hjlt, rfl⟩
      set i := idx[j] with hidef
      have hi_mem : i ∈ idx := List.mem_iff_getElem?.mpr ⟨j, hj⟩
      have hi_n : i < n := List.mem_range.mp (hperm.mem_iff.mp hi_mem)
      have hinotin : i ∉ idx.take j := nodup_not_mem_take idx hnd j i hj
      have hdi : d ≤ i := by
        by_contra hc
        push_neg at hc
        exact hinotin (hinv.hdeliv i hc)
      have hdlt : d < n := lt_of_le_of_lt hinv.hdj hjge
      have hjd : j ≤ d + 127 := ready_pos_bound s n idx hperm hdisp j d hdlt hready
      have hi127 : i ≤ j + 127 := (hdisp j i hj).1
      have htake1 : idx.take (j + 1) = idx.take j ++ [i] := by
        rw [List.take_succ, hj]
        rfl
      have htr : track = seqAdd s i :: (idx.drop (j + 1)).map (seqAdd s) := by
        rw [hinv.htrack, List.drop_eq_getElem_cons hjlt, List.map_cons]
      obtain ⟨e, pk, bf, ps⟩ := st
      have he : e = some (seqAdd s d) := hinv.hexp
      have hpk : pk = siv.map (seqAdd s) := hinv.hpack
      subst he hpk
      have hcount : siv.length + d = j := hinv.hcount
      have hbuf : bf + siv.length = 128 := hinv.hbuf
      have hpush : ps = (List.range d).map (seqAdd s) := hinv.hpush
      have hbfne : ¬ bf = 0 := by omega
      have hsivwin : ∀ k ∈ siv, k < d + 32768 ∧ d < k + 32768 := by
        intro k hk
        have h1 := (hinv.hmem k).mp hk
        have h2 := mem_take_upper idx hdisp j k h1.1
        omega
      by_cases hid : i = d
      · -- incoming packet is the expected one
        by_cases hsiv0 : siv = []
        · subst hsiv0
          simp only [List.map_nil]
          -- saved map empty: deliver directly
          have hinv2 : ReorderInv s n idx (j + 1) (d + 1) []
              ((idx.drop (j + 1)).map (seqAdd s))
              ⟨some (seqNext (seqAdd s d)), [], bf, ps ++ [seqAdd s d]⟩ := by
            refine ⟨by omega, by omega, rfl, by rw [seqNext_seqAdd], ?_, List.sorted_nil,
              ?_, rfl, by omega, by simpa using hbuf, ?_⟩
            · intro k hk
              rcases Nat.lt_or_ge k d with hk2 | hk2
              · exact htake1 ▸ List.mem_append_left _ (hinv.hdeliv k hk2)
              · have hkd : k = d := by omega
                subst hkd
                rw [htake1, ← hid]
                exact List.mem_append_right _ (List.mem_singleton.mpr rfl)
            · intro x
              simp only [List.not_mem_nil, false_iff, not_and, not_le]
              intro hx
              rw [htake1] at hx
              rcases List.mem_append.mp hx with hx1 | hx1
              · have := (hinv.hmem x).mp
                by_contra hc
                push_neg at hc
                have := (hinv.hmem x).mpr ⟨hx1, by omega⟩
                simp at this
              · have hxi : x = i := List.mem_singleton.mp hx1
                omega
            · show ps ++ [seqAdd s d] = (List.range (d + 1)).map (seqAdd s)
              rw [hpush, List.range_succ, List.map_append]
              rfl
          by_cases hresp : resp ps.length = true
          · have hstep : loopRead resp track ⟨some (seqAdd s d), [], bf, ps⟩ =
                ((idx.drop (j + 1)).map (seqAdd s),
                  ⟨some (seqNext (seqAdd s d)), [], bf, ps ++ [seqAdd s d]⟩,
                  Except.ok ()) := by
              rw [htr, loopRead]
              rw [hid]
              simp [hbfne, seqNumCmp_self, hresp]
            rw [hstep]
            exact ⟨j + 1, d + 1, [], hinv2, by omega, Or.inl ⟨rfl, by omega⟩⟩
          · have hstep : loopRead resp track ⟨some (seqAdd s d), [], bf, ps⟩ =
                loopRead resp ((idx.drop (j + 1)).map (seqAdd s))
                  ⟨some (seqNext (seqAdd s d)), [], bf, ps ++ [seqAdd s d]⟩ := by
              rw [htr, loopRead]
              rw [hid]
              simp [hbfne, seqNumCmp_self, hresp]
            have hready2 : d + 1 ∉ idx.take (j + 1) := by
              rw [htake1]
              intro hc
              rcases List.mem_append.mp hc with hc1 | hc1
              · have := (hinv.hmem (d + 1)).mpr ⟨hc1, by omega⟩
                simp at this
              · have := List.mem_singleton.mp hc1
                omega
            rw [hstep]
            obtain ⟨j3, d3, siv3, hinv3, hd3, hcase3⟩ :=
              ih (j + 1) (d + 1) [] ((idx.drop (j + 1)).map (seqAdd s))
                ⟨some (seqNext (seqAdd s d)), [], bf, ps ++ [seqAdd s d]⟩
                (by omega) hinv2 hready2
            refine ⟨j3, d3, siv3, hinv3, by omega, ?_⟩
            rcases hcase3 with ⟨h1, h2⟩ | ⟨h1, h2, h3⟩
            · exact Or.inl ⟨h1, by omega⟩
            · exact Or.inr ⟨h1, h2, h3⟩
        · -- saved map non-empty: insert then drain
          have hnotd : d ∉ siv := by
            intro hc
            exact hready ((hinv.hmem d).mp hc).1
          obtain ⟨siv2, hins, hsort2, hmem2, hlen2⟩ :=
            mapInsert_spec s d siv hinv.hsorted
              (by intro k hk; have := hsivwin k hk; omega) hnotd
          have hinv2 : ReorderInv s n idx (j + 1) d siv2
              ((idx.drop (j + 1)).map (seqAdd s))
              ⟨some (seqAdd s d), siv2.map (seqAdd s), bf - 1, ps⟩ := by
            refine ⟨by omega, by omega, rfl, rfl, ?_, hsort2, ?_, rfl, by omega,
              (by show bf - 1 + siv2.length = 128; omega), hpush⟩
            · intro k hk
              exact htake1 ▸ List.mem_append_left _ (hinv.hdeliv k hk)
            · intro x
              rw [hmem2 x, htake1]
              constructor
              · rintro (hx | hxd)
                · have := (hinv.hmem x).mp hx
                  exact ⟨List.mem_append_left _ this.1, this.2⟩
                · rw [hxd]
                  refine ⟨List.mem_append_right _ ?_, le_refl d⟩
                  rw [hid]
                  exact List.mem_singleton.mpr rfl
              · rintro ⟨hx1, hx2⟩
                rcases List.mem_append.mp hx1 with hx3 | hx3
                · exact Or.inl ((hinv.hmem x).mpr ⟨hx3, hx2⟩)
                · right
                  have := List.mem_singleton.mp hx3
                  omega
          have hiE : (siv.map (seqAdd s)).isEmpty = false := by
            cases siv with
            | nil => exact absurd rfl hsiv0
            | cons a as => rfl
          have hwin2 : ∀ k ∈ siv2, k < d + 32768 := by
            intro k hk
            rcases (hmem2 k).mp hk with hk1 | rfl
            · exact (hsivwin k hk1).1
            · omega
          obtain ⟨d2, siv3, hinv3, hd2, hcase2⟩ :=
            processSavedPackets_spec resp s n idx (j + 1) siv2 d
              ((idx.drop (j + 1)).map (seqAdd s))
              ⟨some (seqAdd s d), siv2.map (seqAdd s), bf - 1, ps⟩ hinv2 hwin2
          cases hpsp : processSavedPackets resp ⟨some (seqAdd s d), siv2.map (seqAdd s), bf - 1, ps⟩ with
          | mk st3 res3 =>
            rw [hpsp] at hinv3 hcase2
            rcases hcase2 with ⟨hres, hdlt2⟩ | ⟨hres, hnread⟩
            · -- drain returned BytesWritten: this call returns Ok
              simp only at hres
              have hstep : loopRead resp track ⟨some (seqAdd s d), siv.map (seqAdd s), bf, ps⟩ =
                  ((idx.drop (j + 1)).map (seqAdd s), st3, Except.ok ()) := by
                rw [htr, loopRead]
                rw [hid]
                simp only [hbfne, if_false, reduceIte, seqNumCmp_self, hiE, hins, hpsp, hres,
                  Bool.false_eq_true, Nat.add_zero]
              rw [hstep]
              exact ⟨j + 1, d2, siv3, by simpa using hinv3, by omega, Or.inl ⟨rfl, hdlt2⟩⟩
            · -- drain exhausted the contiguous run: keep reading
              simp only at hres
              have hstep : loopRead resp track ⟨some (seqAdd s d), siv.map (seqAdd s), bf, ps⟩ =
                  loopRead resp ((idx.drop (j + 1)).map (seqAdd s)) st3 := by
                rw [htr, loopRead]
                rw [hid]
                simp only [hbfne, if_false, reduceIte, seqNumCmp_self, hiE, hins, hpsp, hres,
                  Bool.false_eq_true, Nat.add_zero]
              rw [hstep]
              obtain ⟨j3, d3, siv4, hinv4, hd3, hcase3⟩ :=
                ih (j + 1) d2 siv3 ((idx.drop (j + 1)).map (seqAdd s)) st3
                  (by omega) hinv3 hnread
              refine ⟨j3, d3, siv4, hinv4, by omega, ?_⟩
              rcases hcase3 with ⟨h1, h2⟩ | ⟨h1, h2, h3⟩
              · exact Or.inl ⟨h1, by omega⟩
              · exact Or.inr ⟨h1, h2, h3⟩
      · -- incoming packet is ahead of the expected one: stash it
        have hdilt : d < i := lt_of_le_of_ne hdi (fun h => hid h.symm)
        have hcmp : seqNumCmp (seqAdd s i) (seqAdd s d) = Ordering.gt :=
          seqNumCmp_seqAdd_gt s d i hdilt (by omega)
        have hnoti : i ∉ siv := by
          intro hc
          exact hinotin ((hinv.hmem i).mp hc).1
        obtain ⟨siv2, hins, hsort2, hmem2, hlen2⟩ :=
          mapInsert_spec s i siv hinv.hsorted
            (by intro k hk
                have h1 := hsivwin k hk
                have h2 := mem_take_upper idx hdisp j k ((hinv.hmem k).mp hk).1
                have h3 := ((hinv.hmem k).mp hk).2
                have h4 : i ≤ j + 127 := hi127
                have h5 : j ≤ d + 127 := hjd
                have h6 : d ≤ i := hdi
                omega) hnoti
        have hinv2 : ReorderInv s n idx (j + 1) d siv2
            ((idx.drop (j + 1)).map (seqAdd s))
            ⟨some (seqAdd s d), siv2.map (seqAdd s), bf - 1, ps⟩ := by
          refine ⟨by omega, by omega, rfl, rfl, ?_, hsort2, ?_, rfl, by omega,
              (by show bf - 1 + siv2.length = 128; omega), hpush⟩
          · intro k hk
            exact htake1 ▸ List.mem_append_left _ (hinv.hdeliv k hk)
          · intro x
            rw [hmem2 x, htake1]
            constructor
            · rintro (hx | hxi)
              · have := (hinv.hmem x).mp hx
                exact ⟨List.mem_append_left _ this.1, this.2⟩
              · rw [hxi]
                exact ⟨List.mem_append_right _ (List.mem_singleton.mpr rfl), hdi⟩
            · rintro ⟨hx1, hx2⟩
              rcases List.mem_append.mp hx1 with hx3 | hx3
              · exact Or.inl ((hinv.hmem x).mpr ⟨hx3, hx2⟩)
              · exact Or.inr (List.mem_singleton.mp hx3)
        have hready2 : d ∉ idx.take (j + 1) := by
          rw [htake1]
          intro hc
          rcases List.mem_append.mp hc with hc1 | hc1
          · exact hready hc1
          · exact hid (List.mem_singleton.mp hc1).symm
        have hstep : loopRead resp track ⟨some (seqAdd s d), siv.map (seqAdd s), bf, ps⟩ =
            loopRead resp ((idx.drop (j + 1)).map (seqAdd s))
              ⟨some (seqAdd s d), siv2.map (seqAdd s), bf - 1, ps⟩ := by
          rw [htr, loopRead]
          simp [hbfne, hcmp, hins]
        rw [hstep]
        obtain ⟨j3, d3, siv4, hinv4, hd3, hcase3⟩ :=
          ih (j + 1) d siv2 ((idx.drop (j + 1)).map (seqAdd s))
            ⟨some (seqAdd s d), siv2.map (seqAdd s), bf - 1, ps⟩
            (by omega) hinv2 hready2
        exact ⟨j3, d3, siv4, hinv4, hd3, hcase3⟩

theorem readFromTrack_spec (resp : Nat → Bool) (s n : Nat) (idx : List Nat)
    (hperm : idx.Perm (List.range n))
    (hdisp : ∀ p i, idx[p]? = some i → i ≤ p + 127 ∧ p ≤ i + 127)
    (j d : Nat) (siv : List Nat) (track : List Nat) (st : ReorderBuffer)
    (hinv : ReorderInv s n idx j d siv track st) :
    ∃ j2 d2 siv2,
      ReorderInv s n idx j2 d2 siv2 (readFromTrack resp track st).1
        (readFromTrack resp track st).2.1 ∧
      d ≤ d2 ∧
      (((readFromTrack resp track st).2.2 = Except.ok () ∧ d < d2) ∨
       ((readFromTrack resp track st).2.2 =
          Except.error ReorderBufferError.trackRemoteReadTimeout ∧ j2 = n ∧ d2 = n)) := by
  obtain ⟨e, pk, bf, ps⟩ := st
  have he : e = some (seqAdd s d) := hinv.hexp
  have hpk : pk = siv.map (seqAdd s) := hinv.hpack
  subst he hpk
  by_cases hsiv0 : siv = []
  · subst hsiv0
    have hready : d ∉ idx.take j := by
      intro hc
      have := (hinv.hmem d).mpr ⟨hc, le_refl d⟩
      simp at this
    have hstep : readFromTrack resp track ⟨some (seqAdd s d), List.map (seqAdd s) [], bf, ps⟩ =
        loopRead resp track ⟨some (seqAdd s d), List.map (seqAdd s) [], bf, ps⟩ := by
      rw [readFromTrack]
      simp
    rw [hstep]
    exact loopRead_spec resp s n idx hperm hdisp (n - j) j d [] track _ (le_refl _) hinv hready
  · have hiE : (siv.map (seqAdd s)).isEmpty = false := by
      cases siv with
      | nil => exact absurd rfl hsiv0
      | cons a as => rfl
    have hwin : ∀ i ∈ siv, i < d + 32768 := by
      intro k hk
      have h1 := mem_take_upper idx hdisp j k ((hinv.hmem k).mp hk).1
      have h2 := hinv.hcount
      have h3 := hinv.hbuf
      omega
    obtain ⟨d2, siv2, hinv2, hd2, hcase2⟩ :=
      processSavedPackets_spec resp s n idx j siv d track
        ⟨some (seqAdd s d), siv.map (seqAdd s), bf, ps⟩ hinv hwin
    cases hpsp : processSavedPackets resp ⟨some (seqAdd s d), siv.map (seqAdd s), bf, ps⟩ with
    | mk st3 res3 =>
      rw [hpsp] at hinv2 hcase2
      rcases hcase2 with ⟨hres, hdlt2⟩ | ⟨hres, hnread⟩
      · simp only at hres
        have hstep : readFromTrack resp track ⟨some (seqAdd s d), siv.map (seqAdd s), bf, ps⟩ =
            (track, st3, Except.ok ()) := by
          rw [readFromTrack]
          simp only [hiE, Bool.false_eq_true, if_false, reduceIte, hpsp, hres]
        rw [hstep]
        exact ⟨j, d2, siv2, by simpa using hinv2, hd2, Or.inl ⟨rfl, hdlt2⟩⟩
      · simp only at hres
        have hstep : readFromTrack resp track ⟨some (seqAdd s d), siv.map (seqAdd s), bf, ps⟩ =
            loopRead resp track st3 := by
          rw [readFromTrack]
          simp only [hiE, Bool.false_eq_true, if_false, reduceIte, hpsp, hres]
        rw [hstep]
        obtain ⟨j3, d3, siv3, hinv3, hd3, hcase3⟩ :=
          loopRead_spec resp s n idx hperm hdisp (n - j) j d2 siv2 track st3
            (le_refl _) hinv2 hnread
        refine ⟨j3, d3, siv3, hinv3, by omega, ?_⟩
        rcases hcase3 with ⟨h1, h2⟩ | ⟨h1, h2, h3⟩
        · exact Or.inl ⟨h1, by omega⟩
        · exact Or.inr ⟨h1, h2, h3⟩

theorem readLoop_spec (resp : Nat → Bool) (s n : Nat) (idx : List Nat)
    (hperm : idx.Perm (List.range n))
    (hdisp : ∀ p i, idx[p]? = some i → i ≤ p + 127 ∧ p ≤ i + 127) :
    ∀ (fuel j d : Nat) (siv : List Nat) (track : List Nat) (st : ReorderBuffer),
    ReorderInv s n idx j d siv track st →
    n + 1 ≤ d + fuel →
    ∃ st2, readLoop resp fuel track st =
        ([], st2, some ReorderBufferError.trackRemoteReadTimeout) ∧
      ReorderInv s n idx n n [] [] st2 := by
  intro fuel
  induction fuel with
  | zero =>
    intro j d siv track st hinv hfuel
    have h1 := hinv.hdj
    have h2 := hinv.hjn
    omega
  | succ fuel ih =>
    intro j d siv track st hinv hfuel
    obtain ⟨j2, d2, siv2, hinv2, hd2, hcase2⟩ :=
      readFromTrack_spec resp s n idx hperm hdisp j d siv track st hinv
    cases hcall : readFromTrack resp track st with
    | mk tr2 p2 =>
      obtain ⟨st2, res2⟩ := p2
      rw [hcall] at hinv2 hcase2
      simp only at hinv2 hcase2
      rcases hcase2 with ⟨hres, hdlt2⟩ | ⟨hres, hj2, hd2e⟩
      · subst hres
        have hstep : readLoop resp (fuel + 1) track st = readLoop resp fuel tr2 st2 := by
          rw [readLoop]
          rw [hcall]
        rw [hstep]
        exact ih j2 d2 siv2 tr2 st2 hinv2 (by omega)
      · subst hres
        have hsiv2 : siv2 = [] := by
          have := hinv2.hcount
          have hz : siv2.length = 0 := by omega
          exact List.eq_nil_of_length_eq_zero hz
        have htr2 : tr2 = [] := by
          have hlen : idx.length = n := by simpa using hperm.length_eq
          rw [hinv2.htrack, List.drop_eq_nil_of_le (by omega), List.map_nil]
        have hstep : readLoop resp (fuel + 1) track st =
            (tr2, st2, some ReorderBufferError.trackRemoteReadTimeout) := by
          rw [readLoop]
          rw [hcall]
        rw [hstep, htr2]
        refine ⟨st2, rfl, ?_⟩
        have h1 := hinv2
        rw [hsiv2, htr2, hj2, hd2e] at h1
        exact h1

/-- C1 (amended): for every arrival order `idx` of the run
`s, s+1, ..., s+n-1` (as `u16` values `seqAdd s i`) that is a permutation of
`0..n-1` with every packet displaced by at most 127 positions AND whose first
arrival is the first packet of the run, the consumer loop around
`read_from_track` delivers all `n` packets to the payload reader in strictly
increasing wrap-aware order (the run prefix, exactly once each, in run
order), leaves no packet stashed, and then times out waiting for more data.
The extra first-arrival hypothesis is required: the buffer initialises its
expected sequence number from the first packet it reads, so a displaced
first packet makes later smaller sequence numbers unrecoverable. -/
theorem reorderBuffer_delivers_in_order (resp : Nat → Bool) (s n : Nat) (idx : List Nat)
    (hperm : idx.Perm (List.range n))
    (hdisp : ∀ p i, idx[p]? = some i → i ≤ p + 127 ∧ p ≤ i + 127)
    (hfirst : 0 < n → idx[0]? = some 0) :
    ∃ st2, readLoop resp (n + 1) (idx.map (seqAdd s)) ReorderBuffer.initial =
        ([], st2, some ReorderBufferError.trackRemoteReadTimeout) ∧
      st2.pushed = (List.range n).map (seqAdd s) ∧
      st2.packets = [] := by
  have hlen : idx.length = n := by simpa using hperm.length_eq
  rcases Nat.eq_zero_or_pos n with hn0 | hnpos
  · subst hn0
    have hidx : idx = [] := List.eq_nil_of_length_eq_zero hlen
    subst hidx
    exact ⟨ReorderBuffer.initial, rfl, rfl, rfl⟩
  · have h0 := hfirst hnpos
    have hpos : 0 < idx.length := by omega
    have hval : idx[0] = 0 := by
      have := List.getElem?_eq_some_iff.mp h0
      exact this.2
    have hcons : idx = 0 :: idx.drop 1 := by
      conv_lhs => rw [← List.drop_zero idx, List.drop_eq_getElem_cons hpos]
      rw [hval]
    have htr0 : idx.map (seqAdd s) = seqAdd s 0 :: (idx.drop 1).map (seqAdd s) := by
      conv_lhs => rw [hcons]
      rfl
    have htake1 : idx.take 1 = [0] := by
      conv_lhs => rw [hcons]
      rfl
    have hinv1 : ReorderInv s n idx 1 1 [] ((idx.drop 1).map (seqAdd s))
        ⟨some (seqNext (seqAdd s 0)), [], 128, [] ++ [seqAdd s 0]⟩ := by
      refine ⟨hnpos, le_refl 1, rfl, by rw [seqNext_seqAdd], ?_, List.sorted_nil, ?_,
        rfl, rfl, rfl, ?_⟩
      · intro k hk
        have hk0 : k = 0 := by omega
        subst hk0
        rw [htake1]
        exact List.mem_singleton.mpr rfl
      · intro x
        simp only [List.not_mem_nil, false_iff, not_and, not_le]
        intro hx
        rw [htake1] at hx
        have := List.mem_singleton.mp hx
        omega
      · show [] ++ [seqAdd s 0] = (List.range 1).map (seqAdd s)
        rfl
    have hready1 : 1 ∉ idx.take 1 := by
      rw [htake1]
      intro hc
      have := List.mem_singleton.mp hc
      omega
    by_cases hr : resp 0 = true
    · have hcall : readFromTrack resp (idx.map (seqAdd s)) ReorderBuffer.initial =
          ((idx.drop 1).map (seqAdd s),
            ⟨some (seqNext (seqAdd s 0)), [], 128, [] ++ [seqAdd s 0]⟩,
            Except.ok ()) := by
        rw [readFromTrack]
        simp only [ReorderBuffer.initial, List.isEmpty_nil, if_true]
        rw [htr0, loopRead]
        simp [seqNumCmp_self, hr]
      have hstep : readLoop resp (n + 1) (idx.map (seqAdd s)) ReorderBuffer.initial =
          readLoop resp n ((idx.drop 1).map (seqAdd s))
            ⟨some (seqNext (seqAdd s 0)), [], 128, [] ++ [seqAdd s 0]⟩ := by
        rw [readLoop]
        rw [hcall]
      rw [hstep]
      obtain ⟨st3, heq, hinv3⟩ :=
        readLoop_spec resp s n idx hperm hdisp n 1 1 [] _ _ hinv1 (by omega)
      refine ⟨st3, heq, hinv3.hpush, ?_⟩
      have := hinv3.hpack
      simpa using this
    · have hrf : resp 0 = false := by
        cases hb : resp 0 with
        | true => exact absurd hb hr
        | false => rfl
      have hcall : readFromTrack resp (idx.map (seqAdd s)) ReorderBuffer.initial =
          loopRead resp ((idx.drop 1).map (seqAdd s))
            ⟨some (seqNext (seqAdd s 0)), [], 128, [] ++ [seqAdd s 0]⟩ := by
        rw [readFromTrack]
        simp only [ReorderBuffer.initial, List.isEmpty_nil, if_true]
        rw [htr0, loopRead]
        simp [seqNumCmp_self, hrf]
      obtain ⟨j2, d2, siv2, hinv2, hd2, hcase2⟩ :=
        loopRead_spec resp s n idx hperm hdisp (n - 1) 1 1 []
          ((idx.drop 1).map (seqAdd s))
          ⟨some (seqNext (seqAdd s 0)), [], 128, [] ++ [seqAdd s 0]⟩
          (le_refl _) hinv1 hready1
      cases hl : loopRead resp ((idx.drop 1).map (seqAdd s))
          ⟨some (seqNext (seqAdd s 0)), [], 128, [] ++ [seqAdd s 0]⟩ with
      | mk tr2 p2 =>
        obtain ⟨st4, res4⟩ := p2
        rw [hl] at hinv2 hcase2
        simp only at hinv2 hcase2
        rcases hcase2 with ⟨hres, hdlt2⟩ | ⟨hres, hj2, hd2e⟩
        · subst hres
          have hstep : readLoop resp (n + 1) (idx.map (seqAdd s)) ReorderBuffer.initial =
              readLoop resp n tr2 st4 := by
            rw [readLoop]
            rw [hcall, hl]
          rw [hstep]
          obtain ⟨st3, heq, hinv3⟩ :=
            readLoop_spec resp s n idx hperm hdisp n j2 d2 siv2 tr2 st4 hinv2 (by omega)
          refine ⟨st3, heq, hinv3.hpush, ?_⟩
          have := hinv3.hpack
          simpa using this
        · subst hres
          have hsiv2 : siv2 = [] := by
            have := hinv2.hcount
            have hz : siv2.length = 0 := by omega
            exact List.eq_nil_of_length_eq_zero hz
          have htr2 : tr2 = [] := by
            rw [hinv2.htrack, hj2, List.drop_eq_nil_of_le (by omega), List.map_nil]
          have hstep : readLoop resp (n + 1) (idx.map (seqAdd s)) ReorderBuffer.initial =
              (tr2, st4, some ReorderBufferError.trackRemoteReadTimeout) := by
            rw [readLoop]
            rw [hcall, hl]
          rw [hstep, htr2]
          refine ⟨st4, rfl, ?_, ?_⟩
          · rw [hinv2.hpush, hd2e]
          · rw [hinv2.hpack, hsiv2, List.map_nil]

/-- C1 witness: the amended theorem applied at `s = 65534`, `n = 4`,
arrival order `[0, 2, 1, 3]` (the run crosses the `u16` wrap-around point)
with a reader that accepts every payload. -/
theorem reorderBuffer_delivers_in_order_witness :
    (([0, 2, 1, 3] : List Nat).Perm (List.range 4) ∧
      (∀ p i, ([0, 2, 1, 3] : List Nat)[p]? = some i → i ≤ p + 127 ∧ p ≤ i + 127) ∧
      (0 < 4 → ([0, 2, 1, 3] : List Nat)[0]? = some 0)) ∧
    (∃ st2, readLoop (fun _ => true) (4 + 1)
          (([0, 2, 1, 3] : List Nat).map (seqAdd 65534)) ReorderBuffer.initial =
        ([], st2, some ReorderBufferError.trackRemoteReadTimeout) ∧
      st2.pushed = (List.range 4).map (seqAdd 65534) ∧
      st2.packets = []) := by
  have hdisp : ∀ p i, ([0, 2, 1, 3] : List Nat)[p]? = some i →
      i ≤ p + 127 ∧ p ≤ i + 127 := by
    intro p i h
    rcases p with _ | _ | _ | _ | p <;> simp_all <;> omega
  exact ⟨⟨by decide, hdisp, by decide⟩,
    reorderBuffer_delivers_in_order (fun _ => true) 65534 4 [0, 2, 1, 3]
      (by decide) hdisp (by decide)⟩

/-- C1 counterexample to the original claim: the arrival order `[1, 0]` of
the run `0, 1` is a permutation with maximal displacement 1 (far below 128),
yet the buffer initialises its expected sequence number to the first-read
packet `1`, delivers it, and then fails with
`UnableToMaintainReorderBuffer` when packet `0` arrives: only `[1]` is ever
delivered, not the full run `[0, 1]`. -/
theorem reorderBuffer_displaced_first_packet_cex :
    ([1, 0] : List Nat).Perm (List.range 2) ∧
    (∀ p i, ([1, 0] : List Nat)[p]? = some i → i ≤ p + 127 ∧ p ≤ i + 127) ∧
    readLoop (fun _ => true) (2 + 1) (([1, 0] : List Nat).map (seqAdd 0))
        ReorderBuffer.initial =
      ([], ⟨some 2, [], 128, [1]⟩,
        some ReorderBufferError.unableToMaintainReorderBuffer) ∧
    (⟨some 2, [], 128, [1]⟩ : ReorderBuffer).pushed ≠ (List.range 2).map (seqAdd 0) := by
  refine ⟨by decide, ?_, by decide, by decide⟩
  intro p i h
  rcases p with _ | _ | p <;> simp_all <;> omega
